import Mathlib

/-!
Verification of the comments-slice of `plasma-node/discuit-fork`
(`src/ui/src/slices/commentsSlice.ts`).

The JavaScript code manipulates a graph of mutable `Node` objects that hold
aliased references to one another (`parent` back-pointers, shared `children`
arrays).  We embed that object graph shallowly as an arena: a `Heap` is a list
of `Node` records, an object reference is its index (`Nat`), and the JS field
mutations become functional updates of the heap.  Allocation (`{...}` object
literals and spreads) appends to the heap.  `Date.now()` is passed to the
reducer as an explicit `now` argument.

`commentsTreePreserveOrder` and the five reducer cases are translated directly
from the source.  The helper module `commentsTree.ts` (providing
`commentsTree`, `searchTree`, `addComment`) is not part of the sources, so
those three definitions are modelled from the spec (sections 4.1, 4.3, 4.4);
each carries a doc comment saying so.
-/

/-- A comment record: `id` plus optional `parentId` (§3 of the spec;
`serverTypes.Comment` in the source).  Other fields are inert pass-through
and irrelevant to every claim, so they are omitted. -/
structure Comment where
  id : String
  parentId : Option String
deriving DecidableEq, Repr

/-- A tree vertex, mirroring `Node` of the source: `comment` (`null` for the
synthetic root), ordered `children` (object references = heap addresses),
`parent` back-reference, plus the two UI fields. -/
structure Node where
  comment : Option Comment
  children : List Nat
  parent : Option Nat
  noRepliesRendered : Nat
  collapsed : Bool
deriving DecidableEq, Repr

instance : Inhabited Node := ⟨⟨none, [], none, 0, false⟩⟩

/-- The JS object heap: address `a` denotes `nodes[a]`. -/
structure Heap where
  nodes : List Node
deriving DecidableEq, Repr

def Heap.get (h : Heap) (a : Nat) : Node := h.nodes.getD a default

def Heap.set (h : Heap) (a : Nat) (n : Node) : Heap := ⟨h.nodes.set a n⟩

def Heap.alloc (h : Heap) (n : Node) : Heap × Nat :=
  (⟨h.nodes ++ [n]⟩, h.nodes.length)

def Heap.size (h : Heap) : Nat := h.nodes.length

def emptyHeap : Heap := ⟨[]⟩

/-- JS truthiness of a possibly-absent string: `undefined` and `""` are falsy.
The source guards with `if (c.parentId)`, and the spec's data model (§3)
likewise reads "absent/empty ⇒ top-level". -/
def truthy : Option String → Bool
  | none => false
  | some s => !(s == "")

/-- A fresh node for a comment, as allocated in pass 1 of the builders. -/
def mkNode (c : Comment) : Node :=
  ⟨some c, [], none, 0, false⟩

/-- The `nodeMap` object: assignment prepends, lookup takes the first (hence
most recent) binding — i.e. last write wins, as for a JS object key. -/
def mapGet (m : List (String × Nat)) (k : String) : Option Nat :=
  (m.find? (fun e => e.1 == k)).map (·.2)

/-- Pass 1 of the builders: allocate one node per comment in input order and
record it in the map (`nodeMap[c.id] = node`). -/
def pass1 (h : Heap) (m : List (String × Nat)) : List Comment → Heap × List (String × Nat)
  | [] => (h, m)
  | c :: cs =>
    let (h1, a) := h.alloc (mkNode c)
    pass1 h1 ((c.id, a) :: m) cs

/-- Attach `node` under the root: `rootNode.children.push(node); node.parent
= rootNode` (lines 44-47 / 49-51 of the source). -/
def attachToRoot (h : Heap) (rootA : Nat) (node : Nat) : Heap :=
  let h1 := h.set rootA { h.get rootA with children := (h.get rootA).children ++ [node] }
  h1.set node { h1.get node with parent := some rootA }

/-- One iteration of the second loop of `commentsTreePreserveOrder`
(lines 36-53): resolve the comment's node from the map, then attach it to its
parent when the parent is found, else to the root.  The `none` branch for the
node itself is unreachable (every id was inserted in pass 1). -/
def attachOne (rootA : Nat) (m : List (String × Nat)) (h : Heap) (c : Comment) : Heap :=
  match mapGet m c.id with
  | none => h
  | some node =>
    if truthy c.parentId then
      match mapGet m (c.parentId.getD "") with
      | some parentA =>
        let h1 := h.set node { h.get node with parent := some parentA }
        h1.set parentA { h1.get parentA with children := (h1.get parentA).children ++ [node] }
      | none => attachToRoot h rootA node
    else attachToRoot h rootA node

/-- `commentsTreePreserveOrder` (source, lines 10-56): allocate a pseudo-root,
run pass 1 building `nodeMap`, then attach every node in input order.
Returns the final heap and the root's address. -/
def commentsTreePreserveOrder (h : Heap) (comments : List Comment) : Heap × Nat :=
  let (h0, rootA) := h.alloc ⟨none, [], none, 0, false⟩
  let (h1, m) := pass1 h0 [] comments
  (comments.foldl (attachOne rootA m) h1, rootA)

/-- Modelled from the spec: `find` / `searchTree` of the missing module
`commentsTree.ts` (§4.3) — depth-first search for the first node whose
`comment.id` equals the target; the root never matches since its `comment`
is absent.  Fueled because an arbitrary heap may contain reference cycles. -/
def searchNode (h : Heap) (id : String) : Nat → Nat → Option Nat
  | 0, _ => none
  | fuel + 1, a =>
    match (h.get a).comment with
    | some c =>
      if c.id == id then some a
      else (h.get a).children.findSome? (searchNode h id fuel)
    | none => (h.get a).children.findSome? (searchNode h id fuel)

/-- Modelled from the spec: entry point of §4.3's `find`, with fuel ample for
any cycle-free tree in the heap. -/
def searchTree (h : Heap) (rootA : Nat) (id : String) : Option Nat :=
  searchNode h id (h.size + 1) rootA

/-- Pass 2 of §4.1's merging builder: the parent is looked up in the batch
map first, then (when merging) anywhere in the existing tree; found parents
get the node appended as last child with the back-reference set, otherwise
the node goes under the root. -/
def mergeAttachOne (rootA : Nat) (existing : Bool) (m : List (String × Nat))
    (h : Heap) (c : Comment) : Heap :=
  match mapGet m c.id with
  | none => h
  | some node =>
    if truthy c.parentId then
      let inBatch := mapGet m (c.parentId.getD "")
      let target :=
        match inBatch with
        | some t => some t
        | none => if existing then searchTree h rootA (c.parentId.getD "") else none
      match target with
      | some parentA =>
        let h1 := h.set node { h.get node with parent := some parentA }
        h1.set parentA { h1.get parentA with children := (h1.get parentA).children ++ [node] }
      | none => attachToRoot h rootA node
    else attachToRoot h rootA node

/-- Modelled from the spec: `build`/`commentsTree` of the missing module
`commentsTree.ts` (§4.1) — two-pass tree construction, optionally merging
into an existing root. -/
def commentsTree (h : Heap) (comments : List Comment) (existingRoot : Option Nat) : Heap × Nat :=
  let (h0, rootA) :=
    match existingRoot with
    | some r => (h, r)
    | none => h.alloc ⟨none, [], none, 0, false⟩
  let (h1, m) := pass1 h0 [] comments
  (comments.foldl (mergeAttachOne rootA existingRoot.isSome m) h1, rootA)

/-- Modelled from the spec: the node §4.4's `insert` attaches the new comment
under — the node holding id `parentId` when one exists anywhere in the tree,
else the root. -/
def addTarget (h : Heap) (rootA : Nat) (c : Comment) : Nat :=
  if truthy c.parentId then
    match searchTree h rootA (c.parentId.getD "") with
    | some t => t
    | none => rootA
  else rootA

/-- Modelled from the spec: `insert`/`addComment` of the missing module
`commentsTree.ts` (§4.4) — append the new comment as last child of the node
with id `parentId` when one exists anywhere in the tree, else of the root;
return the inserted node. -/
def addComment (h : Heap) (rootA : Nat) (c : Comment) : Heap × Nat :=
  let target := addTarget h rootA c
  let (h1, n) := h.alloc { mkNode c with parent := some target }
  (h1.set target { h1.get target with children := (h1.get target).children ++ [n] }, n)

/-- One iteration of the `newChildren` loop of the reducer (source lines
150-156): a child whose comment id equals the top-level ancestor's is
replaced by a fresh shallow copy of that ancestor, any other child is kept
as is. -/
def copyStep (topA : Nat) (acc : Heap × List Nat) (ch : Nat) : Heap × List Nat :=
  if ((acc.1.get ch).comment.map (·.id)) = ((acc.1.get topA).comment.map (·.id)) then
    let al := acc.1.alloc (acc.1.get topA)
    (al.1, acc.2 ++ [al.2])
  else (acc.1, acc.2 ++ [ch])

/-- The `while (rootNode.parent!.parent) rootNode = rootNode.parent!` loop of
the reducer (source lines 144-147), fueled. -/
def ascend (h : Heap) : Nat → Nat → Nat
  | 0, a => a
  | fuel + 1, a =>
    match (h.get a).parent with
    | some q => if ((h.get q).parent).isSome then ascend h fuel q else a
    | none => a

/-- Per-post entry of the state (source lines 58-69); `comments` is the heap
address of the tree's root. -/
structure Entry where
  comments : Nat
  next : Option String
  zIndexTop : Nat
  fetchedAt : Nat
  lastFetchedAt : Nat
deriving DecidableEq, Repr

/-- `CommentsState` (source lines 58-69): `items` is the JS object keyed by
post id, embedded as an association list in key-creation order. -/
structure CommentsState where
  ids : List String
  items : List (String × Entry)
deriving DecidableEq, Repr

def itemsGet (items : List (String × Entry)) (k : String) : Option Entry :=
  (items.find? (fun e => e.1 == k)).map (·.2)

/-- `{...items, [k]: v}`: overwrite in place when the key exists, else append. -/
def itemsSet (items : List (String × Entry)) (k : String) (v : Entry) : List (String × Entry) :=
  if items.any (fun e => e.1 == k) then
    items.map (fun e => if e.1 == k then (k, v) else e)
  else items ++ [(k, v)]

/-- Junk entry standing for the JS `undefined` spread target; all claims
presuppose the entry's presence, so this is never relevant to a theorem. -/
def junkEntry : Entry := ⟨0, none, 0, 0, 0⟩

def initialState : CommentsState := ⟨[], []⟩

def defaultCommentZIndex : Nat := 100000

/-- The five action types plus foreign actions, with each payload shaped as
the corresponding `as`-cast in the source assumes. -/
inductive ReducerAction where
  | commentsAdded (postId : String) (comments : List Comment) (next : Option String)
  | newCommentAdded (postId : String) (comment : Comment)
  | replyCommentsAdded (postId : String) (comments : List Comment)
  | moreCommentsAdded (postId : String) (comments : Nat) (next : Option String)
  | commentsLoaded (postId : String) (comments : List Comment)
  | other (type : String)
deriving DecidableEq, Repr

/-- The `action.type` string the reducer's `switch` scrutinises. -/
def ReducerAction.typeOf : ReducerAction → String
  | .commentsAdded .. => "comments/commentsAdded"
  | .newCommentAdded .. => "comments/newCommentAdded"
  | .replyCommentsAdded .. => "comments/replyCommentsAdded"
  | .moreCommentsAdded .. => "comments/moreCommentsAdded"
  | .commentsLoaded .. => "comments/commentsLoaded"
  | .other t => t

/-- `commentsReducer` (source lines 94-215), heap-threaded, with `Date.now()`
supplied as `now`.  Each branch is a direct transcription; in particular:
the `commentsAdded` guard consults `state.ids`, which no branch ever updates
(as in the source); the `moreCommentsAdded` branch rebuilds `items` with only
the acted-on post (the source omits `...state.items` there); and the
`newCommentAdded` branch mutates the stored tree in place before shallow-copying
the root. -/
def commentsReducer (h : Heap) (state : CommentsState) (action : ReducerAction) (now : Nat) :
    Heap × CommentsState :=
  match action with
  | .commentsAdded postId commentsList next =>
    if state.ids.contains postId then (h, state)
    else
      let (h1, tree) := commentsTree h commentsList none
      (h1, { state with
              items := itemsSet state.items postId ⟨tree, next, defaultCommentZIndex, now, now⟩ })
  | .moreCommentsAdded postId comments next =>
    let e := (itemsGet state.items postId).getD junkEntry
    (h, { state with
           items := [(postId, { e with comments := comments, next := next, lastFetchedAt := now })] })
  | .newCommentAdded postId comment =>
    let e := (itemsGet state.items postId).getD junkEntry
    let root := e.comments
    let res := addComment h root comment
    let h1 := res.1
    let node := res.2
    let nested :=
      match (h1.get node).parent with
      | some q => ((h1.get q).parent).isSome
      | none => false
    if nested then
      let topA := ascend h1 h1.size node
      let fr := (h1.get root).children.foldl (copyStep topA) (h1, [])
      let h2 := fr.1
      let h3 := h2.set root { h2.get root with children := fr.2 }
      let cp := h3.alloc (h3.get root)
      (cp.1, { state with
                items := itemsSet state.items postId { e with comments := cp.2 } })
    else
      let cp := h1.alloc (h1.get root)
      (cp.1, { state with
                items := itemsSet state.items postId
                  { e with comments := cp.2, zIndexTop := e.zIndexTop + 1 } })
  | .replyCommentsAdded postId comments =>
    let e := (itemsGet state.items postId).getD junkEntry
    let root := e.comments
    let newComments := comments.filter (fun c => searchTree h root c.id == none)
    let merged := commentsTree h newComments (some root)
    let cp := merged.1.alloc (merged.1.get merged.2)
    (cp.1, { state with
              items := itemsSet state.items postId
                { e with comments := cp.2, lastFetchedAt := now } })
  | .commentsLoaded postId comments =>
    let built := commentsTreePreserveOrder h comments
    let e := (itemsGet state.items postId).getD junkEntry
    (built.1, { state with
                 items := itemsSet state.items postId { e with comments := built.2 } })
  | .other _ => (h, state)

/-! ## Specification-side functions used to state the claims -/

/-- The ids of the records of a batch. -/
def idsOf (C : List Comment) : List String := C.map (·.id)

/-- A record the spec calls top-level relative to batch `C`: its `parentId`
is absent (the data model, §3, identifies absent and empty) or matches no
record id of the batch. -/
def topLevelIn (C : List Comment) (c : Comment) : Bool :=
  match c.parentId with
  | none => true
  | some p => p == "" || !((idsOf C).contains p)

/-- Iterated `parent` dereference: `pIter h k a` follows `k` parent links
from `a`, `none` when a link is absent before the `k` steps are spent. -/
def pIter (h : Heap) : Nat → Nat → Option Nat
  | 0, a => some a
  | k + 1, a =>
    match (h.get a).parent with
    | none => none
    | some q => pIter h k q

/-- The record of `C` a record's `parentId` resolves to (none when the
`parentId` is absent, empty, or matches no id of the batch). -/
def resolvedParent (C : List Comment) (c : Comment) : Option Comment :=
  match c.parentId with
  | none => none
  | some p => if p == "" then none else C.find? (fun r => r.id == p)

/-- `topFuel C k c`: following in-batch `parentId` resolution from `c`
reaches a record with no resolved parent within `k` hops. -/
def topFuel (C : List Comment) : Nat → Comment → Bool
  | k, c =>
    match resolvedParent C c with
    | none => true
    | some p =>
      match k with
      | 0 => false
      | k + 1 => topFuel C k p

/-- Fueled size of the tree hanging from an address (descending `children`
only); for fuel exceeding the tree's height this is the node count. -/
def countNodes (h : Heap) : Nat → Nat → Nat
  | 0, _ => 0
  | fuel + 1, a => 1 + ((h.get a).children.map (countNodes h fuel)).sum

/-- Reachability from the root by descending `children` sequences: the nodes
that are part of the tree. -/
inductive Reach (h : Heap) (r : Nat) : Nat → Prop
  | root : Reach h r r
  | child {a b : Nat} : Reach h r a → b ∈ (h.get a).children → Reach h r b

/-- Number of occurrences of address `a` across all children sequences of the
heap. -/
def occurrencesIn (h : Heap) (a : Nat) : Nat :=
  ((List.range h.size).map (fun j => ((h.get j).children).count a)).sum

/-- Every `children` entry and every `parent` link of every node points below
the allocation frontier. -/
def ClosedHeap (h : Heap) : Prop :=
  ∀ j, j < h.size →
    (∀ a ∈ (h.get j).children, a < h.size) ∧
    (∀ q, (h.get j).parent = some q → q < h.size)

/-! ## Heap access lemmas -/

theorem Heap.get_set_ne (h : Heap) (b a : Nat) (nd : Node) (hab : a ≠ b) :
    (h.set b nd).get a = h.get a := by
  simp [Heap.get, Heap.set, List.getD, List.getElem?_set_ne (fun hx => hab hx.symm)]

theorem Heap.get_set_self (h : Heap) (b : Nat) (nd : Node) (hb : b < h.size) :
    (h.set b nd).get b = nd := by
  simp [Heap.get, Heap.set, List.getD, List.getElem?_set_eq_of_lt nd hb]

theorem Heap.set_of_ge (h : Heap) (b : Nat) (nd : Node) (hb : h.size ≤ b) :
    h.set b nd = h := by
  simp [Heap.set, List.set_eq_of_length_le hb]

theorem Heap.size_set (h : Heap) (b : Nat) (nd : Node) : (h.set b nd).size = h.size := by
  simp [Heap.set, Heap.size]

theorem Heap.size_alloc (h : Heap) (nd : Node) : (h.alloc nd).1.size = h.size + 1 := by
  simp [Heap.alloc, Heap.size]

theorem Heap.get_alloc_lt (h : Heap) (nd : Node) (a : Nat) (ha : a < h.size) :
    (h.alloc nd).1.get a = h.get a := by
  have ha2 : a < h.nodes.length := ha
  simp only [Heap.alloc, Heap.get, List.getD, List.get?_eq_getElem?, List.getElem?_append]
  rw [if_pos ha2]

theorem Heap.get_of_ge (h : Heap) (a : Nat) (ha : h.size ≤ a) : h.get a = default := by
  simp [Heap.get, List.getD, List.getElem?_eq_none ha]

theorem Heap.get_eq_of_getElem? (h : Heap) (a : Nat) (nd : Node) (hx : h.nodes[a]? = some nd) :
    h.get a = nd := by
  simp [Heap.get, List.getD, hx]

theorem Heap.get_alloc_self (h : Heap) (nd : Node) : (h.alloc nd).1.get h.size = nd := by
  simp [Heap.alloc, Heap.get, Heap.size, List.getD]

/-! ## Closed forms for pass 1 -/

/-- The bindings `nodeMap` holds after pass 1 over `C` starting at address
`b`, latest binding first (so lookup = last write). -/
def pass1Map (b : Nat) : List Comment → List (String × Nat)
  | [] => []
  | c :: cs => pass1Map (b + 1) cs ++ [(c.id, b)]

theorem pass1_heap (C : List Comment) : ∀ (h : Heap) (m : List (String × Nat)),
    (pass1 h m C).1.nodes = h.nodes ++ C.map mkNode := by
  induction C with
  | nil => intro h m; simp [pass1]
  | cons c cs ih =>
    intro h m
    simp only [pass1, Heap.alloc]
    rw [ih]
    simp

theorem pass1_map (C : List Comment) : ∀ (h : Heap) (m : List (String × Nat)),
    (pass1 h m C).2 = pass1Map h.size C ++ m := by
  induction C with
  | nil => intro h m; simp [pass1, pass1Map]
  | cons c cs ih =>
    intro h m
    simp only [pass1, Heap.alloc, pass1Map]
    rw [ih]
    simp [Heap.size]

theorem mapGet_append (l1 l2 : List (String × Nat)) (k : String) :
    mapGet (l1 ++ l2) k = (mapGet l1 k).or (mapGet l2 k) := by
  simp [mapGet, List.find?_append]
  cases l1.find? (fun e => e.1 == k) <;> simp

theorem mapGet_nil (k : String) : mapGet [] k = none := rfl

theorem mapGet_single (k ki : String) (a : Nat) :
    mapGet [(ki, a)] k = if ki = k then some a else none := by
  by_cases hk : ki = k
  · rw [if_pos hk]
    unfold mapGet
    rw [List.find?_cons_of_pos _ (by simpa using hk)]
    rfl
  · rw [if_neg hk]
    unfold mapGet
    rw [List.find?_cons_of_neg _ (by simpa using hk)]
    rfl

theorem mapGet_pass1Map_eq_none (C : List Comment) : ∀ (b : Nat) (k : String),
    mapGet (pass1Map b C) k = none ↔ k ∉ idsOf C := by
  induction C with
  | nil => intro b k; simp [pass1Map, idsOf, mapGet_nil]
  | cons c cs ih =>
    intro b k
    simp only [pass1Map, mapGet_append, mapGet_single]
    constructor
    · intro hx
      cases hor : mapGet (pass1Map (b + 1) cs) k with
      | some a => rw [hor] at hx; simp [Option.or] at hx
      | none =>
        rw [hor] at hx
        simp only [Option.or] at hx
        have h1 : k ∉ idsOf cs := (ih (b + 1) k).mp hor
        by_cases hk : c.id = k
        · rw [if_pos hk] at hx; exact absurd hx (by simp)
        · simp only [idsOf, List.map_cons, List.mem_cons]
          rintro (h | h)
          · exact hk h.symm
          · exact h1 h
    · intro hk
      simp only [idsOf, List.map_cons, List.mem_cons, not_or] at hk
      have h1 : mapGet (pass1Map (b + 1) cs) k = none := (ih (b + 1) k).mpr hk.2
      rw [h1, if_neg (fun hx => hk.1 hx.symm)]
      rfl

theorem mapGet_pass1Map_mem (C : List Comment) : ∀ (b : Nat) (k : String) (a : Nat),
    mapGet (pass1Map b C) k = some a →
    b ≤ a ∧ ∃ c, C[a - b]? = some c ∧ c.id = k := by
  induction C with
  | nil => intro b k a hx; simp [pass1Map, mapGet_nil] at hx
  | cons c cs ih =>
    intro b k a hx
    rw [pass1Map, mapGet_append] at hx
    cases hor : mapGet (pass1Map (b + 1) cs) k with
    | some a2 =>
      rw [hor] at hx
      simp only [Option.or_some] at hx
      obtain rfl := Option.some.inj hx
      obtain ⟨hle, c2, hc2, hid⟩ := ih (b + 1) k a2 hor
      refine ⟨by omega, c2, ?_, hid⟩
      have hsub : a2 - b = (a2 - (b + 1)) + 1 := by omega
      rw [hsub]
      simpa using hc2
    | none =>
      rw [hor, mapGet_single] at hx
      simp only [Option.none_or] at hx
      by_cases hk : c.id = k
      · rw [if_pos hk] at hx
        obtain rfl := Option.some.inj hx
        exact ⟨Nat.le_refl _, c, by simp, hk⟩
      · rw [if_neg hk] at hx; cases hx

theorem mapGet_pass1Map_nodup (C : List Comment) (hnd : (idsOf C).Nodup) :
    ∀ (b i : Nat) (c : Comment), C[i]? = some c →
    mapGet (pass1Map b C) c.id = some (b + i) := by
  induction C with
  | nil => intro b i c hc; simp at hc
  | cons c0 cs ih =>
    intro b i c hc
    rw [pass1Map, mapGet_append]
    rw [idsOf, List.map_cons, List.nodup_cons] at hnd
    cases i with
    | zero =>
      rw [List.getElem?_cons_zero] at hc
      obtain rfl : c0 = c := Option.some.inj hc
      have hnone : mapGet (pass1Map (b + 1) cs) c0.id = none :=
        (mapGet_pass1Map_eq_none cs (b + 1) c0.id).mpr hnd.1
      rw [hnone, mapGet_single, if_pos rfl]
      simp
    | succ j =>
      rw [List.getElem?_cons_succ] at hc
      have hx := ih hnd.2 (b + 1) j c hc
      rw [hx]
      have heq : b + 1 + j = b + (j + 1) := by omega
      rw [heq]
      rfl

/-! ## Equations for the second loop -/

theorem attachOne_eq_skip (r : Nat) (m : List (String × Nat)) (h : Heap) (c : Comment)
    (hn : mapGet m c.id = none) : attachOne r m h c = h := by
  simp [attachOne, hn]

theorem attachOne_eq_parent (r : Nat) (m : List (String × Nat)) (h : Heap) (c : Comment)
    (node parentA : Nat) (hn : mapGet m c.id = some node)
    (ht : truthy c.parentId = true)
    (hp : mapGet m (c.parentId.getD "") = some parentA) :
    attachOne r m h c =
      (h.set node { h.get node with parent := some parentA }).set parentA
        { (h.set node { h.get node with parent := some parentA }).get parentA with
            children :=
              ((h.set node { h.get node with parent := some parentA }).get parentA).children
                ++ [node] } := by
  simp [attachOne, hn, ht, hp]

theorem attachOne_eq_root_notfound (r : Nat) (m : List (String × Nat)) (h : Heap) (c : Comment)
    (node : Nat) (hn : mapGet m c.id = some node) (ht : truthy c.parentId = true)
    (hp : mapGet m (c.parentId.getD "") = none) :
    attachOne r m h c = attachToRoot h r node := by
  simp [attachOne, hn, ht, hp]

theorem attachOne_eq_root_top (r : Nat) (m : List (String × Nat)) (h : Heap) (c : Comment)
    (node : Nat) (hn : mapGet m c.id = some node) (ht : truthy c.parentId = false) :
    attachOne r m h c = attachToRoot h r node := by
  simp [attachOne, hn, ht]

theorem Heap.comment_set (h : Heap) (b : Nat) (nd : Node)
    (hc : nd.comment = (h.get b).comment) (a : Nat) :
    ((h.set b nd).get a).comment = (h.get a).comment := by
  by_cases hab : a = b
  · subst hab
    by_cases hb : a < h.size
    · rw [Heap.get_set_self h a nd hb, hc]
    · rw [Heap.set_of_ge h a nd (Nat.le_of_not_lt hb)]
  · rw [Heap.get_set_ne h b a nd hab]

theorem attachToRoot_size (h : Heap) (r node : Nat) : (attachToRoot h r node).size = h.size := by
  simp [attachToRoot, Heap.size_set]

theorem attachToRoot_comment (h : Heap) (r node a : Nat) :
    ((attachToRoot h r node).get a).comment = (h.get a).comment := by
  unfold attachToRoot
  set h1 := h.set r { h.get r with children := (h.get r).children ++ [node] } with hh1
  have e1 : ∀ b, (h1.get b).comment = (h.get b).comment := by
    intro b
    rw [hh1]
    exact Heap.comment_set h r { h.get r with children := (h.get r).children ++ [node] } rfl b
  have e2 : ((h1.set node { h1.get node with parent := some r }).get a).comment
      = (h1.get a).comment :=
    Heap.comment_set h1 node { h1.get node with parent := some r } rfl a
  rw [e2, e1 a]

theorem attachOne_size (r : Nat) (m : List (String × Nat)) (h : Heap) (c : Comment) :
    (attachOne r m h c).size = h.size := by
  cases hn : mapGet m c.id with
  | none => rw [attachOne_eq_skip r m h c hn]
  | some node =>
    cases ht : truthy c.parentId with
    | false => rw [attachOne_eq_root_top r m h c node hn ht, attachToRoot_size]
    | true =>
      cases hp : mapGet m (c.parentId.getD "") with
      | none => rw [attachOne_eq_root_notfound r m h c node hn ht hp, attachToRoot_size]
      | some parentA =>
        rw [attachOne_eq_parent r m h c node parentA hn ht hp]
        simp [Heap.size_set]

theorem attachOne_comment (r : Nat) (m : List (String × Nat)) (h : Heap) (c : Comment) (a : Nat) :
    ((attachOne r m h c).get a).comment = (h.get a).comment := by
  cases hn : mapGet m c.id with
  | none => rw [attachOne_eq_skip r m h c hn]
  | some node =>
    cases ht : truthy c.parentId with
    | false => rw [attachOne_eq_root_top r m h c node hn ht, attachToRoot_comment]
    | true =>
      cases hp : mapGet m (c.parentId.getD "") with
      | none => rw [attachOne_eq_root_notfound r m h c node hn ht hp, attachToRoot_comment]
      | some parentA =>
        rw [attachOne_eq_parent r m h c node parentA hn ht hp]
        set h1 := h.set node { h.get node with parent := some parentA } with hh1
        have e1 : ∀ b, (h1.get b).comment = (h.get b).comment := by
          intro b
          rw [hh1]
          exact Heap.comment_set h node { h.get node with parent := some parentA } rfl b
        have e2 : ((h1.set parentA
            { h1.get parentA with children := (h1.get parentA).children ++ [node] }).get a).comment
            = (h1.get a).comment :=
          Heap.comment_set h1 parentA
            { h1.get parentA with children := (h1.get parentA).children ++ [node] } rfl a
        rw [e2, e1 a]

/-- The branch condition under which the second loop attaches a record's node
under the root: `parentId` falsy, or not found in `nodeMap`. -/
def rootIsTarget (m : List (String × Nat)) (c : Comment) : Bool :=
  !(truthy c.parentId) || (mapGet m (c.parentId.getD "")).isNone

/-- The addresses the second loop pushes onto the root's children, in input
order. -/
def rootPushes (m : List (String × Nat)) (l : List Comment) : List Nat :=
  l.filterMap (fun c => if rootIsTarget m c then mapGet m c.id else none)

theorem attachToRoot_children0 (h : Heap) (node : Nat) (hsz : 0 < h.size) (hnz : node ≠ 0) :
    ((attachToRoot h 0 node).get 0).children = (h.get 0).children ++ [node] := by
  unfold attachToRoot
  rw [Heap.get_set_ne _ node 0 _ (fun hx => hnz hx.symm), Heap.get_set_self h 0 _ hsz]

theorem attachOne_children0 (m : List (String × Nat)) (h : Heap) (c : Comment) (node : Nat)
    (hn : mapGet m c.id = some node)
    (hpos : ∀ k a, mapGet m k = some a → 0 < a) (hsz : 0 < h.size) :
    ((attachOne 0 m h c).get 0).children =
      (h.get 0).children ++ (if rootIsTarget m c then [node] else []) := by
  have hnz : node ≠ 0 := Nat.pos_iff_ne_zero.mp (hpos _ _ hn)
  cases ht : truthy c.parentId with
  | false =>
    rw [attachOne_eq_root_top 0 m h c node hn ht,
      attachToRoot_children0 h node hsz hnz]
    have hrt : rootIsTarget m c = true := by simp [rootIsTarget, ht]
    rw [hrt, if_pos rfl]
  | true =>
    cases hp : mapGet m (c.parentId.getD "") with
    | none =>
      rw [attachOne_eq_root_notfound 0 m h c node hn ht hp,
        attachToRoot_children0 h node hsz hnz]
      have hrt : rootIsTarget m c = true := by simp [rootIsTarget, ht, hp]
      rw [hrt, if_pos rfl]
    | some parentA =>
      have hpz : parentA ≠ 0 := Nat.pos_iff_ne_zero.mp (hpos _ _ hp)
      rw [attachOne_eq_parent 0 m h c node parentA hn ht hp]
      rw [Heap.get_set_ne _ parentA 0 _ (fun hx => hpz hx.symm),
        Heap.get_set_ne _ node 0 _ (fun hx => hnz hx.symm)]
      have hrt : rootIsTarget m c = false := by simp [rootIsTarget, ht, hp]
      rw [hrt]
      simp

theorem foldAttach_root (m : List (String × Nat))
    (hpos : ∀ k a, mapGet m k = some a → 0 < a) :
    ∀ (l : List Comment) (h : Heap), 0 < h.size →
      (∀ c ∈ l, (mapGet m c.id).isSome = true) →
      ((l.foldl (attachOne 0 m) h).size = h.size ∧
       (∀ a, ((l.foldl (attachOne 0 m) h).get a).comment = (h.get a).comment) ∧
       ((l.foldl (attachOne 0 m) h).get 0).children = (h.get 0).children ++ rootPushes m l) := by
  intro l
  induction l with
  | nil =>
    intro h hsz _
    refine ⟨rfl, fun a => rfl, ?_⟩
    simp [rootPushes]
  | cons c cs ih =>
    intro h hsz hl
    obtain ⟨node, hn⟩ := Option.isSome_iff_exists.mp (hl c (by simp))
    have hstep := attachOne_children0 m h c node hn hpos hsz
    have hsz2 : 0 < (attachOne 0 m h c).size := by rw [attachOne_size]; exact hsz
    have hl2 : ∀ c2 ∈ cs, (mapGet m c2.id).isSome = true := fun c2 hc2 => hl c2 (by simp [hc2])
    obtain ⟨ihs, ihc, ihch⟩ := ih (attachOne 0 m h c) hsz2 hl2
    rw [List.foldl_cons]
    refine ⟨by rw [ihs, attachOne_size], fun a => by rw [ihc a, attachOne_comment], ?_⟩
    rw [ihch, hstep]
    have hpush : rootPushes m (c :: cs) =
        (if rootIsTarget m c then [node] else []) ++ rootPushes m cs := by
      unfold rootPushes
      rw [List.filterMap_cons]
      cases hrt : rootIsTarget m c with
      | true => rw [if_pos rfl, hn]; simp
      | false => rw [if_neg (by simp)]; simp
    rw [hpush, List.append_assoc]

/-- The heap right after `rootNode` is allocated on an empty heap. -/
def rootOnlyHeap : Heap := ⟨[⟨none, [], none, 0, false⟩]⟩

theorem build_unfold (C : List Comment) :
    commentsTreePreserveOrder emptyHeap C =
      (C.foldl (attachOne 0 (pass1Map 1 C)) (pass1 rootOnlyHeap [] C).1, 0) := by
  unfold commentsTreePreserveOrder
  have h2 : (pass1 rootOnlyHeap [] C).2 = pass1Map 1 C := by
    rw [pass1_map]
    simp [rootOnlyHeap, Heap.size]
  show (C.foldl (attachOne 0 (pass1 rootOnlyHeap [] C).2) (pass1 rootOnlyHeap [] C).1, 0) = _
  rw [h2]

theorem pass1_comment_at (C : List Comment) (k : String) (a : Nat)
    (hg : mapGet (pass1Map 1 C) k = some a) :
    ((pass1 rootOnlyHeap [] C).1.get a).comment.map (·.id) = some k := by
  obtain ⟨h1a, c2, hc2, hid⟩ := mapGet_pass1Map_mem C 1 k a hg
  have hget : (pass1 rootOnlyHeap [] C).1.get a = mkNode c2 := by
    apply Heap.get_eq_of_getElem?
    rw [pass1_heap]
    show ((⟨none, [], none, 0, false⟩ : Node) :: C.map mkNode)[a]? = some (mkNode c2)
    have ha : a = (a - 1) + 1 := by omega
    rw [ha, List.getElem?_cons_succ, List.getElem?_map, hc2]
    rfl
  rw [hget]
  simp [mkNode, hid]

theorem mapGet_pass1Map_isSome (C : List Comment) (b : Nat) (c : Comment) (hc : c ∈ C) :
    (mapGet (pass1Map b C) c.id).isSome = true := by
  have hne : mapGet (pass1Map b C) c.id ≠ none := by
    intro hx
    exact ((mapGet_pass1Map_eq_none C b c.id).mp hx) (by simp [idsOf]; exact ⟨c, hc, rfl⟩)
  exact Option.ne_none_iff_isSome.mp hne

theorem rootIsTarget_eq_topLevelIn (C : List Comment) (c : Comment) :
    rootIsTarget (pass1Map 1 C) c = topLevelIn C c := by
  unfold rootIsTarget topLevelIn
  cases hpid : c.parentId with
  | none => simp [truthy]
  | some p =>
    by_cases hps : p = ""
    · subst hps
      simp [truthy]
    · have ht : truthy (some p) = true := by simp [truthy, hps]
      rw [ht]
      simp only [Option.getD_some, Bool.not_true, Bool.false_or]
      have hps2 : (p == "") = false := by simp [hps]
      rw [hps2, Bool.false_or]
      cases hmv : mapGet (pass1Map 1 C) p with
      | none =>
        have hmem : p ∉ idsOf C := (mapGet_pass1Map_eq_none C 1 p).mp hmv
        simp [hmem]
      | some a =>
        have hmem : p ∈ idsOf C := by
          by_contra hx
          rw [(mapGet_pass1Map_eq_none C 1 p).mpr hx] at hmv
          cases hmv
        simp [hmem]

theorem rootPushes_map_ids (C : List Comment) :
    ∀ l : List Comment, (∀ c ∈ l, c ∈ C) →
      (rootPushes (pass1Map 1 C) l).map
          (fun a => ((pass1 rootOnlyHeap [] C).1.get a).comment.map (·.id)) =
        (l.filter (topLevelIn C)).map (fun c => some c.id) := by
  intro l
  induction l with
  | nil => intro _; rfl
  | cons c cs ih =>
    intro hsub
    have hc : c ∈ C := hsub c (List.mem_cons_self c cs)
    have hsub2 : ∀ c2 ∈ cs, c2 ∈ C := fun c2 h2 => hsub c2 (List.mem_cons_of_mem c h2)
    unfold rootPushes
    rw [List.filterMap_cons, rootIsTarget_eq_topLevelIn C c]
    cases hrt : topLevelIn C c with
    | false =>
      rw [if_neg (by simp)]
      rw [List.filter_cons_of_neg (by simp [hrt])]
      exact ih hsub2
    | true =>
      rw [if_pos rfl]
      obtain ⟨node, hn⟩ := Option.isSome_iff_exists.mp (mapGet_pass1Map_isSome C 1 c hc)
      rw [hn]
      rw [List.filter_cons_of_pos (by simp [hrt])]
      simp only [List.map_cons]
      rw [pass1_comment_at C c.id node hn]
      have ihx := ih hsub2
      unfold rootPushes at ihx
      rw [ihx]

/-- C1: for every comment batch `C`, the ids of the root's children in
`commentsTreePreserveOrder C` are exactly, in order, the ids of the records
of `C` whose `parentId` is absent (absent/empty, per the data model of §3) or
matches no record id of `C`; and in particular the batch
`[c, a, b(parent a)]` yields root children ids `["c", "a"]` with `b` a child
of `a`. -/
theorem C1_order_fidelity :
    (∀ C : List Comment,
      (((commentsTreePreserveOrder emptyHeap C).1.get
            (commentsTreePreserveOrder emptyHeap C).2).children).map
          (fun a => ((commentsTreePreserveOrder emptyHeap C).1.get a).comment.map (·.id)) =
        (C.filter (topLevelIn C)).map (fun c => some c.id)) ∧
    ((((commentsTreePreserveOrder emptyHeap
          [⟨"c", none⟩, ⟨"a", none⟩, ⟨"b", some "a"⟩]).1.get 0).children).map
        (fun a => ((commentsTreePreserveOrder emptyHeap
          [⟨"c", none⟩, ⟨"a", none⟩, ⟨"b", some "a"⟩]).1.get a).comment.map (·.id)) =
        [some "c", some "a"] ∧
      ((commentsTreePreserveOrder emptyHeap
          [⟨"c", none⟩, ⟨"a", none⟩, ⟨"b", some "a"⟩]).1.get 2).children = [3] ∧
      ((commentsTreePreserveOrder emptyHeap
          [⟨"c", none⟩, ⟨"a", none⟩, ⟨"b", some "a"⟩]).1.get 3).comment =
        some ⟨"b", some "a"⟩) := by
  constructor
  · intro C
    rw [build_unfold]
    dsimp only
    have hpos : ∀ k a, mapGet (pass1Map 1 C) k = some a → 0 < a := by
      intro k a hg
      exact lt_of_lt_of_le Nat.zero_lt_one (mapGet_pass1Map_mem C 1 k a hg).1
    have hsz : 0 < (pass1 rootOnlyHeap [] C).1.size := by
      have hn := pass1_heap C rootOnlyHeap []
      have hlen : (pass1 rootOnlyHeap [] C).1.size
          = (rootOnlyHeap.nodes ++ C.map mkNode).length := by
        simp only [Heap.size, hn]
      rw [hlen]
      simp [rootOnlyHeap]
    have hl : ∀ c ∈ C, (mapGet (pass1Map 1 C) c.id).isSome = true :=
      fun c hc => mapGet_pass1Map_isSome C 1 c hc
    obtain ⟨hsize, hcom, hch⟩ :=
      foldAttach_root (pass1Map 1 C) hpos C (pass1 rootOnlyHeap [] C).1 hsz hl
    rw [hch]
    have hroot0 : ((pass1 rootOnlyHeap [] C).1.get 0).children = [] := by
      have hg : (pass1 rootOnlyHeap [] C).1.get 0 = ⟨none, [], none, 0, false⟩ := by
        apply Heap.get_eq_of_getElem?
        rw [pass1_heap]
        simp [rootOnlyHeap]
      rw [hg]
    rw [hroot0, List.nil_append]
    have hfun : (fun a => (((C.foldl (attachOne 0 (pass1Map 1 C))
          (pass1 rootOnlyHeap [] C).1).get a).comment.map (·.id)))
        = fun a => (((pass1 rootOnlyHeap [] C).1.get a).comment.map (·.id)) := by
      funext a
      rw [hcom a]
    rw [hfun]
    exact rootPushes_map_ids C C (fun c hc => hc)
  · exact ⟨by decide, by decide, by decide⟩

/-- C10: for every state and any action whose type string is none of the five
comment action types, the reducer returns the state (and heap) completely
unchanged — the default switch case. -/
theorem C10_default_returns_state (h : Heap) (s : CommentsState) (a : ReducerAction) (now : Nat)
    (ha : a.typeOf ∉ ["comments/commentsAdded", "comments/newCommentAdded",
      "comments/replyCommentsAdded", "comments/moreCommentsAdded", "comments/commentsLoaded"]) :
    commentsReducer h s a now = (h, s) := by
  cases a with
  | commentsAdded p c n => exact absurd (by simp [ReducerAction.typeOf]) ha
  | newCommentAdded p c => exact absurd (by simp [ReducerAction.typeOf]) ha
  | replyCommentsAdded p c => exact absurd (by simp [ReducerAction.typeOf]) ha
  | moreCommentsAdded p c n => exact absurd (by simp [ReducerAction.typeOf]) ha
  | commentsLoaded p c => exact absurd (by simp [ReducerAction.typeOf]) ha
  | other t => rfl

theorem C10_default_returns_state_witness :
    (ReducerAction.other "posts/postAdded").typeOf ∉ ["comments/commentsAdded",
      "comments/newCommentAdded", "comments/replyCommentsAdded",
      "comments/moreCommentsAdded", "comments/commentsLoaded"] ∧
    commentsReducer emptyHeap initialState (.other "posts/postAdded") 5 =
      (emptyHeap, initialState) :=
  ⟨by decide, C10_default_returns_state emptyHeap initialState (.other "posts/postAdded") 5
    (by decide)⟩

/-- C2 is false of the code: the `moreCommentsAdded` branch rebuilds `items`
without spreading `state.items`, so the entry of every other post is dropped.
Here a state holding posts `p` and `q` loses `q` entirely when the older-page
event fires for `p`. -/
theorem C2_moreComments_drops_other_posts :
    itemsGet (commentsReducer emptyHeap
        ⟨[], [("p", ⟨0, none, 5, 1, 1⟩), ("q", ⟨9, some "k", 6, 2, 2⟩)]⟩
        (.moreCommentsAdded "p" 7 (some "cur")) 9).2.items "q" = none ∧
    itemsGet (⟨[], [("p", ⟨0, none, 5, 1, 1⟩), ("q", ⟨9, some "k", 6, 2, 2⟩)]⟩
        : CommentsState).items "q" = some ⟨9, some "k", 6, 2, 2⟩ ∧
    itemsGet (commentsReducer emptyHeap
        ⟨[], [("p", ⟨0, none, 5, 1, 1⟩), ("q", ⟨9, some "k", 6, 2, 2⟩)]⟩
        (.moreCommentsAdded "p" 7 (some "cur")) 9).2.items "p" =
      some ⟨7, some "cur", 5, 1, 9⟩ := by
  refine ⟨?_, ?_, ?_⟩ <;> decide

/-- C3 is false of the code: the `commentsAdded` guard consults `state.ids`,
but no branch of the reducer ever adds a post id to `ids`, so after a first
initial-load event for `p` the guard still fails and a second identical event
rebuilds the entry, resetting `fetchedAt` (1 becomes 2 below) instead of
being a no-op. -/
theorem C3_initial_load_not_idempotent :
    ((commentsReducer emptyHeap initialState
        (.commentsAdded "p" [⟨"x", none⟩] (some "n")) 1).2.ids = [] ∧
     (itemsGet (commentsReducer emptyHeap initialState
        (.commentsAdded "p" [⟨"x", none⟩] (some "n")) 1).2.items "p").map (·.fetchedAt) =
       some 1) ∧
    (itemsGet (commentsReducer
        (commentsReducer emptyHeap initialState
          (.commentsAdded "p" [⟨"x", none⟩] (some "n")) 1).1
        (commentsReducer emptyHeap initialState
          (.commentsAdded "p" [⟨"x", none⟩] (some "n")) 1).2
        (.commentsAdded "p" [⟨"x", none⟩] (some "n")) 2).2.items "p").map (·.fetchedAt) =
      some 2 := by
  refine ⟨⟨?_, ?_⟩, ?_⟩ <;> decide

/-- C9 is false of the code: the `newCommentAdded` branch mutates the tree
stored by the previous state in place.  Below, the previous state's entry for
`p` stores root address 0 whose only child is node 1; after the event, node 1
(still the previous state's object) has gained a child, and the old root's
children array was reassigned — the old object graph does not hold its prior
values. -/
theorem C9_reducer_mutates_previous_tree :
    itemsGet ((⟨[], [("p", ⟨0, none, 5, 1, 1⟩)]⟩ : CommentsState)).items "p" =
      some ⟨0, none, 5, 1, 1⟩ ∧
    ((⟨[⟨none, [1], none, 0, false⟩, ⟨some ⟨"a", none⟩, [], some 0, 0, false⟩]⟩ : Heap).get 0).children
      = [1] ∧
    ((⟨[⟨none, [1], none, 0, false⟩, ⟨some ⟨"a", none⟩, [], some 0, 0, false⟩]⟩ : Heap).get 1).children
      = [] ∧
    ((commentsReducer ⟨[⟨none, [1], none, 0, false⟩, ⟨some ⟨"a", none⟩, [], some 0, 0, false⟩]⟩
        ⟨[], [("p", ⟨0, none, 5, 1, 1⟩)]⟩ (.newCommentAdded "p" ⟨"b", some "a"⟩) 7).1.get 1).children
      = [2] ∧
    ((commentsReducer ⟨[⟨none, [1], none, 0, false⟩, ⟨some ⟨"a", none⟩, [], some 0, 0, false⟩]⟩
        ⟨[], [("p", ⟨0, none, 5, 1, 1⟩)]⟩ (.newCommentAdded "p" ⟨"b", some "a"⟩) 7).1.get 0).children
      = [3] := by
  refine ⟨?_, ?_, ?_, ?_, ?_⟩ <;> decide

/-! ## Full structure of the built tree (distinct-id batches) -/

/-- Address of the node `nodeMap` associates with a record's id (`getD 0` is
never exercised for records of the batch). -/
def addrInMap (C : List Comment) (c : Comment) : Nat :=
  (mapGet (pass1Map 1 C) c.id).getD 0

/-- The address pass 2 attaches a record's node under: the mapped parent when
`parentId` is truthy and found, the root (0) otherwise. -/
def targetOf (C : List Comment) (c : Comment) : Nat :=
  if truthy c.parentId then (mapGet (pass1Map 1 C) (c.parentId.getD "")).getD 0 else 0

/-- Addresses pushed onto the children of address `t` by the records of `P`
(in order), addresses fixed by the full batch `C`. -/
def pushesOfList (C : List Comment) (P : List Comment) (t : Nat) : List Nat :=
  P.filterMap (fun c => if targetOf C c = t then some (addrInMap C c) else none)

theorem pushesOfList_nil (C : List Comment) (t : Nat) : pushesOfList C [] t = [] := rfl

theorem pushesOfList_append1 (C P : List Comment) (c : Comment) (t : Nat) :
    pushesOfList C (P ++ [c]) t =
      pushesOfList C P t ++ (if targetOf C c = t then [addrInMap C c] else []) := by
  by_cases hx : targetOf C c = t <;>
    simp [pushesOfList, List.filterMap_append, hx]

theorem getElem?_of_mem_nat {l : List Comment} {a : Comment} (h : a ∈ l) :
    ∃ i : Nat, l[i]? = some a := by
  obtain ⟨i, hi, hx⟩ := List.getElem_of_mem h
  exact ⟨i, by rw [List.getElem?_eq_getElem hi, hx]⟩

theorem idsOf_index_inj (C : List Comment) (hnd : (idsOf C).Nodup) (i j : Nat)
    (ci cj : Comment) (hi : C[i]? = some ci) (hj : C[j]? = some cj)
    (hid : ci.id = cj.id) : i = j := by
  have hi2 : (idsOf C)[i]? = some ci.id := by
    unfold idsOf
    rw [List.getElem?_map, hi]
    rfl
  have hj2 : (idsOf C)[j]? = some cj.id := by
    unfold idsOf
    rw [List.getElem?_map, hj]
    rfl
  have hil : i < (idsOf C).length := by
    by_contra hx
    rw [List.getElem?_eq_none (Nat.le_of_not_lt hx)] at hi2
    cases hi2
  exact List.getElem?_inj hil hnd (by rw [hi2, hj2, hid])

theorem targetOf_le (C : List Comment) (c : Comment) : targetOf C c ≤ C.length := by
  unfold targetOf
  by_cases ht : truthy c.parentId
  · rw [if_pos ht]
    cases hm : mapGet (pass1Map 1 C) (c.parentId.getD "") with
    | none => simp
    | some a =>
      obtain ⟨h1, c2, hc2, _⟩ := mapGet_pass1Map_mem C 1 _ a hm
      have : a - 1 < C.length := by
        by_contra hx
        rw [List.getElem?_eq_none (Nat.le_of_not_lt hx)] at hc2
        cases hc2
      simp only [Option.getD_some]
      omega
  · rw [if_neg ht]
    exact Nat.zero_le _

theorem addrInMap_of_index (C : List Comment) (hnd : (idsOf C).Nodup) (i : Nat) (c : Comment)
    (hc : C[i]? = some c) : addrInMap C c = i + 1 := by
  unfold addrInMap
  rw [mapGet_pass1Map_nodup C hnd 1 i c hc]
  simp [Nat.add_comm]

theorem foldAttach_master (C : List Comment) (hnd : (idsOf C).Nodup) :
    ∀ (l P : List Comment) (h : Heap), C = P ++ l →
      h.size = C.length + 1 →
      h.get 0 = ⟨none, pushesOfList C P 0, none, 0, false⟩ →
      (∀ i c, C[i]? = some c →
        h.get (i + 1) = ⟨some c, pushesOfList C P (i + 1),
          if c ∈ P then some (targetOf C c) else none, 0, false⟩) →
      ((l.foldl (attachOne 0 (pass1Map 1 C)) h).get 0 =
          ⟨none, pushesOfList C C 0, none, 0, false⟩ ∧
       ∀ i c, C[i]? = some c →
         (l.foldl (attachOne 0 (pass1Map 1 C)) h).get (i + 1) =
           ⟨some c, pushesOfList C C (i + 1), some (targetOf C c), 0, false⟩) := by
  intro l
  induction l with
  | nil =>
    intro P h hCP hsz h0 hrec
    rw [List.append_nil] at hCP
    subst hCP
    refine ⟨by rw [List.foldl_nil]; exact h0, fun i c hc => ?_⟩
    have hmem : c ∈ C := by
      have hlt : i < C.length := by
        by_contra hx
        rw [List.getElem?_eq_none (Nat.le_of_not_lt hx)] at hc
        cases hc
      rw [List.getElem?_eq_getElem hlt] at hc
      rw [← Option.some.inj hc]
      exact List.getElem_mem hlt
    rw [List.foldl_nil, hrec i c hc, if_pos hmem]
  | cons c l ih =>
    intro P h hCP hsz h0 hrec
    rw [List.foldl_cons]
    have hc_at : C[P.length]? = some c := by
      rw [hCP, List.getElem?_append_right (Nat.le_refl P.length)]
      simp
    have hnode0 : mapGet (pass1Map 1 C) c.id = some (1 + P.length) :=
      mapGet_pass1Map_nodup C hnd 1 P.length c hc_at
    have hnode : mapGet (pass1Map 1 C) c.id = some (P.length + 1) := by
      rw [hnode0]
      congr 1
      omega
    have haddr : addrInMap C c = P.length + 1 := addrInMap_of_index C hnd P.length c hc_at
    have hlen_lt : P.length < C.length := by
      rw [hCP]
      simp
    have hnode_lt : P.length + 1 < h.size := by omega
    have h0_lt : 0 < h.size := by omega
    have hcP : c ∉ P := by
      intro hcp
      obtain ⟨j, hj⟩ := getElem?_of_mem_nat hcp
      have hjl : j < P.length := by
        by_contra hx
        rw [List.getElem?_eq_none (Nat.le_of_not_lt hx)] at hj
        cases hj
      have hjC : C[j]? = some c := by
        rw [hCP, List.getElem?_append, if_pos hjl]
        exact hj
      have := idsOf_index_inj C hnd j P.length c c hjC hc_at rfl
      omega
    have hmem_step : ∀ i c2, C[i]? = some c2 → i ≠ P.length →
        ((c2 ∈ P ++ [c]) = (c2 ∈ P)) := by
      intro i c2 hi hne
      simp only [List.mem_append, List.mem_singleton]
      apply propext
      constructor
      · rintro (hp | hp)
        · exact hp
        · exact absurd (idsOf_index_inj C hnd i P.length c2 c hi hc_at (by rw [hp])) hne
      · exact fun hp => Or.inl hp
    have hpush : ∀ t, pushesOfList C (P ++ [c]) t =
        pushesOfList C P t ++ (if targetOf C c = t then [P.length + 1] else []) := by
      intro t
      rw [pushesOfList_append1, haddr]
    have happ : C = (P ++ [c]) ++ l := by
      rw [hCP, List.append_assoc]
      rfl
    -- establish the invariant for the prefix P ++ [c] on the stepped heap,
    -- then close with the induction hypothesis
    have hinv : (attachOne 0 (pass1Map 1 C) h c).get 0 =
          ⟨none, pushesOfList C (P ++ [c]) 0, none, 0, false⟩ ∧
        ∀ i c2, C[i]? = some c2 →
          (attachOne 0 (pass1Map 1 C) h c).get (i + 1) =
            ⟨some c2, pushesOfList C (P ++ [c]) (i + 1),
              if c2 ∈ P ++ [c] then some (targetOf C c2) else none, 0, false⟩ := by
      cases ht : truthy c.parentId with
      | false =>
        have htar : targetOf C c = 0 := by simp [targetOf, ht]
        rw [attachOne_eq_root_top 0 (pass1Map 1 C) h c (P.length + 1) hnode ht]
        unfold attachToRoot
        constructor
        · rw [Heap.get_set_ne _ (P.length + 1) 0 _ (by omega),
            Heap.get_set_self h 0 _ h0_lt, h0, hpush 0, htar,
            if_pos (show (0 : Nat) = 0 from rfl)]
        · intro i c2 hi
          by_cases hieq : i = P.length
          · subst hieq
            obtain rfl : c2 = c := by
              rw [hi] at hc_at
              exact Option.some.inj hc_at
            rw [Heap.get_set_self _ (P.length + 1) _ (by rw [Heap.size_set]; exact hnode_lt),
              Heap.get_set_ne _ 0 (P.length + 1) _ (by omega), hrec P.length c2 hi, if_neg hcP,
              hpush (P.length + 1), htar, if_neg (show ¬(0 = P.length + 1) by omega),
              if_pos (show c2 ∈ P ++ [c2] by simp)]
            simp
          · rw [Heap.get_set_ne _ (P.length + 1) (i + 1) _ (by omega),
              Heap.get_set_ne _ 0 (i + 1) _ (by omega),
              hrec i c2 hi, hpush (i + 1), htar, if_neg (show ¬(0 = i + 1) by omega)]
            simp only [hmem_step i c2 hi hieq]
            simp
      | true =>
        cases hp : mapGet (pass1Map 1 C) (c.parentId.getD "") with
        | none =>
          have htar : targetOf C c = 0 := by simp [targetOf, ht, hp]
          rw [attachOne_eq_root_notfound 0 (pass1Map 1 C) h c (P.length + 1) hnode ht hp]
          unfold attachToRoot
          constructor
          · rw [Heap.get_set_ne _ (P.length + 1) 0 _ (by omega),
              Heap.get_set_self h 0 _ h0_lt, h0, hpush 0, htar,
              if_pos (show (0 : Nat) = 0 from rfl)]
          · intro i c2 hi
            by_cases hieq : i = P.length
            · subst hieq
              obtain rfl : c2 = c := by
                rw [hi] at hc_at
                exact Option.some.inj hc_at
              rw [Heap.get_set_self _ (P.length + 1) _
                  (by rw [Heap.size_set]; exact hnode_lt),
                Heap.get_set_ne _ 0 (P.length + 1) _ (by omega), hrec P.length c2 hi,
                if_neg hcP, hpush (P.length + 1), htar,
                if_neg (show ¬(0 = P.length + 1) by omega),
                if_pos (show c2 ∈ P ++ [c2] by simp)]
              simp
            · rw [Heap.get_set_ne _ (P.length + 1) (i + 1) _ (by omega),
                Heap.get_set_ne _ 0 (i + 1) _ (by omega),
                hrec i c2 hi, hpush (i + 1), htar, if_neg (show ¬(0 = i + 1) by omega)]
              simp only [hmem_step i c2 hi hieq]
              simp
        | some parentA =>
          have htar : targetOf C c = parentA := by simp [targetOf, ht, hp]
          obtain ⟨hpa1, cp, hcp, hcpid⟩ := mapGet_pass1Map_mem C 1 _ parentA hp
          have hpa_lt : parentA - 1 < C.length := by
            by_contra hx
            rw [List.getElem?_eq_none (Nat.le_of_not_lt hx)] at hcp
            cases hcp
          rw [attachOne_eq_parent 0 (pass1Map 1 C) h c (P.length + 1) parentA hnode ht hp]
          by_cases hpan : parentA = P.length + 1
          · subst hpan
            constructor
            · rw [Heap.get_set_ne _ (P.length + 1) 0 _ (by omega),
                Heap.get_set_ne _ (P.length + 1) 0 _ (by omega),
                h0, hpush 0, htar, if_neg (show ¬(P.length + 1 = 0) by omega)]
              simp
            · intro i c2 hi
              by_cases hieq : i = P.length
              · subst hieq
                obtain rfl : c2 = c := by
                  rw [hi] at hc_at
                  exact Option.some.inj hc_at
                rw [Heap.get_set_self _ (P.length + 1) _
                    (by rw [Heap.size_set]; exact hnode_lt),
                  Heap.get_set_self _ (P.length + 1) _ hnode_lt, hrec P.length c2 hi,
                  if_neg hcP, hpush (P.length + 1), htar,
                  if_pos (show P.length + 1 = P.length + 1 from rfl),
                  if_pos (show c2 ∈ P ++ [c2] by simp)]
              · rw [Heap.get_set_ne _ (P.length + 1) (i + 1) _ (by omega),
                  Heap.get_set_ne _ (P.length + 1) (i + 1) _ (by omega),
                  hrec i c2 hi, hpush (i + 1), htar,
                  if_neg (show ¬(P.length + 1 = i + 1) by omega)]
                simp only [hmem_step i c2 hi hieq]
                simp
          · constructor
            · rw [Heap.get_set_ne _ parentA 0 _ (by omega),
                Heap.get_set_ne _ (P.length + 1) 0 _ (by omega),
                h0, hpush 0, htar, if_neg (show ¬(parentA = 0) by omega)]
              simp
            · intro i c2 hi
              by_cases hieq : i = P.length
              · subst hieq
                obtain rfl : c2 = c := by
                  rw [hi] at hc_at
                  exact Option.some.inj hc_at
                rw [Heap.get_set_ne _ parentA (P.length + 1) _ (by omega),
                  Heap.get_set_self _ (P.length + 1) _ hnode_lt, hrec P.length c2 hi,
                  if_neg hcP, hpush (P.length + 1), htar,
                  if_neg (show ¬(parentA = P.length + 1) from hpan),
                  if_pos (show c2 ∈ P ++ [c2] by simp)]
                simp
              · by_cases hipa : i + 1 = parentA
                · subst hipa
                  rw [Heap.get_set_self _ (i + 1) _ (by rw [Heap.size_set]; omega),
                    Heap.get_set_ne _ (P.length + 1) (i + 1) _ (by omega), hrec i c2 hi,
                    hpush (i + 1), htar, if_pos (show i + 1 = i + 1 from rfl)]
                  simp only [hmem_step i c2 hi hieq]
                · rw [Heap.get_set_ne _ parentA (i + 1) _ (by omega),
                    Heap.get_set_ne _ (P.length + 1) (i + 1) _ (by omega),
                    hrec i c2 hi, hpush (i + 1), htar,
                    if_neg (show ¬(parentA = i + 1) by omega)]
                  simp only [hmem_step i c2 hi hieq]
                  simp
    exact ih (P ++ [c]) (attachOne 0 (pass1Map 1 C) h c) happ
      (by rw [attachOne_size]; exact hsz) hinv.1 hinv.2

theorem mem_of_getElem?C {l : List Comment} {i : Nat} {a : Comment} (h : l[i]? = some a) :
    a ∈ l := by
  have hlt : i < l.length := by
    by_contra hx
    rw [List.getElem?_eq_none (Nat.le_of_not_lt hx)] at h
    cases h
  rw [List.getElem?_eq_getElem hlt] at h
  rw [← Option.some.inj h]
  exact List.getElem_mem hlt

theorem pass1_get_record (C : List Comment) (i : Nat) (c : Comment) (hc : C[i]? = some c) :
    (pass1 rootOnlyHeap [] C).1.get (i + 1) = mkNode c := by
  apply Heap.get_eq_of_getElem?
  rw [pass1_heap]
  show ((⟨none, [], none, 0, false⟩ : Node) :: C.map mkNode)[i + 1]? = some (mkNode c)
  rw [List.getElem?_cons_succ, List.getElem?_map, hc]
  rfl

/-- The complete shape of the heap built by `commentsTreePreserveOrder` on a
batch with pairwise-distinct ids: the root holds exactly the top-level pushes
and each record's node holds its children and its attachment parent. -/
theorem build_master (C : List Comment) (hnd : (idsOf C).Nodup) :
    (commentsTreePreserveOrder emptyHeap C).1.get 0 =
        ⟨none, pushesOfList C C 0, none, 0, false⟩ ∧
      ∀ i c, C[i]? = some c →
        (commentsTreePreserveOrder emptyHeap C).1.get (i + 1) =
          ⟨some c, pushesOfList C C (i + 1), some (targetOf C c), 0, false⟩ := by
  rw [build_unfold]
  dsimp only
  apply foldAttach_master C hnd C [] (pass1 rootOnlyHeap [] C).1 rfl
  · have hn := pass1_heap C rootOnlyHeap []
    have hlen : (pass1 rootOnlyHeap [] C).1.size
        = (rootOnlyHeap.nodes ++ C.map mkNode).length := by
      simp only [Heap.size, hn]
    rw [hlen]
    simp [rootOnlyHeap]
  · have hg : (pass1 rootOnlyHeap [] C).1.get 0 = ⟨none, [], none, 0, false⟩ := by
      apply Heap.get_eq_of_getElem?
      rw [pass1_heap]
      simp [rootOnlyHeap]
    rw [hg, pushesOfList_nil]
  · intro i c hc
    rw [pass1_get_record C i c hc, pushesOfList_nil, if_neg (by simp)]
    rfl

theorem targetOf_eq_zero (C : List Comment) (c : Comment) (p : String)
    (hp : c.parentId = some p) (hnf : p ∉ idsOf C) : targetOf C c = 0 := by
  have hmn := (mapGet_pass1Map_eq_none C 1 p).mpr hnf
  by_cases hps : p = ""
  · subst hps
    simp [targetOf, hp, truthy]
  · simp [targetOf, hp, truthy, hps, hmn]

theorem mem_pushes_of_target (C : List Comment) (hnd : (idsOf C).Nodup) (i : Nat) (c : Comment)
    (hc : C[i]? = some c) (t : Nat) (ht : targetOf C c = t) :
    (i + 1) ∈ pushesOfList C C t := by
  unfold pushesOfList
  rw [List.mem_filterMap]
  refine ⟨c, mem_of_getElem?C hc, ?_⟩
  rw [if_pos ht, addrInMap_of_index C hnd i c hc]

/-- C4: a record whose `parentId` is present but matches no record id of the
batch has its node attached as a child of the synthetic root, with its parent
back-reference set to the root, by `commentsTreePreserveOrder` — no such
record is dropped (the function is total, so no error can be raised). -/
theorem C4_orphan_promoted_to_root (C : List Comment) (hnd : (idsOf C).Nodup)
    (i : Nat) (r : Comment) (hr : C[i]? = some r) (p : String)
    (hp : r.parentId = some p) (hnf : p ∉ idsOf C) :
    ((commentsTreePreserveOrder emptyHeap C).1.get (i + 1)).comment = some r ∧
    ((commentsTreePreserveOrder emptyHeap C).1.get (i + 1)).parent =
      some (commentsTreePreserveOrder emptyHeap C).2 ∧
    (i + 1) ∈ ((commentsTreePreserveOrder emptyHeap C).1.get
        (commentsTreePreserveOrder emptyHeap C).2).children := by
  obtain ⟨h0, hrec⟩ := build_master C hnd
  have h2 : (commentsTreePreserveOrder emptyHeap C).2 = 0 := by
    rw [build_unfold]
  have htar : targetOf C r = 0 := targetOf_eq_zero C r p hp hnf
  refine ⟨?_, ?_, ?_⟩
  · rw [hrec i r hr]
  · rw [hrec i r hr, h2, htar]
  · rw [h2, h0]
    exact mem_pushes_of_target C hnd i r hr 0 htar

theorem C4_orphan_promoted_to_root_witness :
    ((idsOf [⟨"a", none⟩, ⟨"d", some "x"⟩]).Nodup ∧
      ([⟨"a", none⟩, ⟨"d", some "x"⟩] : List Comment)[1]? = some ⟨"d", some "x"⟩ ∧
      (⟨"d", some "x"⟩ : Comment).parentId = some "x" ∧
      "x" ∉ idsOf [⟨"a", none⟩, ⟨"d", some "x"⟩]) ∧
    (((commentsTreePreserveOrder emptyHeap [⟨"a", none⟩, ⟨"d", some "x"⟩]).1.get 2).comment =
        some ⟨"d", some "x"⟩ ∧
      ((commentsTreePreserveOrder emptyHeap [⟨"a", none⟩, ⟨"d", some "x"⟩]).1.get 2).parent =
        some (commentsTreePreserveOrder emptyHeap [⟨"a", none⟩, ⟨"d", some "x"⟩]).2 ∧
      2 ∈ ((commentsTreePreserveOrder emptyHeap [⟨"a", none⟩, ⟨"d", some "x"⟩]).1.get
          (commentsTreePreserveOrder emptyHeap [⟨"a", none⟩, ⟨"d", some "x"⟩]).2).children) :=
  ⟨⟨by decide, by decide, by decide, by decide⟩,
    C4_orphan_promoted_to_root [⟨"a", none⟩, ⟨"d", some "x"⟩] (by decide) 1
      ⟨"d", some "x"⟩ (by decide) "x" (by decide) (by decide)⟩

theorem foldAttach_size (m : List (String × Nat)) (l : List Comment) :
    ∀ h : Heap, (l.foldl (attachOne 0 m) h).size = h.size := by
  induction l with
  | nil => intro h; rfl
  | cons c cs ih =>
    intro h
    rw [List.foldl_cons, ih, attachOne_size]

theorem build_size (C : List Comment) :
    (commentsTreePreserveOrder emptyHeap C).1.size = C.length + 1 := by
  rw [build_unfold]
  dsimp only
  rw [foldAttach_size]
  have hn := pass1_heap C rootOnlyHeap []
  have hlen : (pass1 rootOnlyHeap [] C).1.size
      = (rootOnlyHeap.nodes ++ C.map mkNode).length := by
    simp only [Heap.size, hn]
  rw [hlen]
  simp [rootOnlyHeap, Nat.add_comm]

theorem pIter_succ (h : Heap) (k a q : Nat) (hq : (h.get a).parent = some q) :
    pIter h (k + 1) a = pIter h k q := by
  show (match (h.get a).parent with
    | none => none
    | some q2 => pIter h k q2) = pIter h k q
  rw [hq]

theorem targetOf_of_resolvedParent_none (C : List Comment) (c : Comment)
    (h : resolvedParent C c = none) : targetOf C c = 0 := by
  unfold resolvedParent at h
  cases hpid : c.parentId with
  | none => simp [targetOf, hpid, truthy]
  | some p =>
    rw [hpid] at h
    by_cases hps : p = ""
    · subst hps
      simp [targetOf, hpid, truthy]
    · have h2 : (if (p == "") = true then none
          else C.find? (fun r => r.id == p)) = (none : Option Comment) := h
      rw [if_neg (by simpa using hps)] at h2
      have hnf : p ∉ idsOf C := by
        intro hmem
        unfold idsOf at hmem
        obtain ⟨r, hr, hrid⟩ := List.mem_map.mp hmem
        have := (List.find?_eq_none.mp h2) r hr
        simp [hrid] at this
      have hmn := (mapGet_pass1Map_eq_none C 1 p).mpr hnf
      simp [targetOf, hpid, truthy, hps, hmn]

theorem targetOf_of_resolvedParent_some (C : List Comment) (hnd : (idsOf C).Nodup)
    (c pr : Comment) (h : resolvedParent C c = some pr) :
    ∃ j, C[j]? = some pr ∧ targetOf C c = j + 1 := by
  unfold resolvedParent at h
  cases hpid : c.parentId with
  | none => rw [hpid] at h; cases h
  | some p =>
    rw [hpid] at h
    have h2 : (if (p == "") = true then none
        else C.find? (fun r => r.id == p)) = some pr := h
    by_cases hps : p = ""
    · rw [if_pos (by simpa using hps)] at h2; cases h2
    · rw [if_neg (by simpa using hps)] at h2
      have hprid : pr.id = p := by simpa using List.find?_some h2
      have hprmem : pr ∈ C := List.mem_of_find?_eq_some h2
      obtain ⟨j, hj⟩ := getElem?_of_mem_nat hprmem
      refine ⟨j, hj, ?_⟩
      have hmg : mapGet (pass1Map 1 C) p = some (1 + j) := by
        rw [← hprid]
        exact mapGet_pass1Map_nodup C hnd 1 j pr hj
      simp [targetOf, hpid, truthy, hps, hmg, Nat.add_comm]

theorem chain_reaches_root (C : List Comment) (hnd : (idsOf C).Nodup) :
    ∀ (k i : Nat) (c : Comment), C[i]? = some c → topFuel C k c = true →
      ∃ j, j ≤ k + 1 ∧
        pIter (commentsTreePreserveOrder emptyHeap C).1 j (i + 1) = some 0 := by
  intro k
  induction k with
  | zero =>
    intro i c hc htf
    cases hrp : resolvedParent C c with
    | none =>
      refine ⟨1, Nat.le_refl 1, ?_⟩
      have hpar : ((commentsTreePreserveOrder emptyHeap C).1.get (i + 1)).parent = some 0 := by
        rw [(build_master C hnd).2 i c hc, targetOf_of_resolvedParent_none C c hrp]
      rw [pIter_succ _ 0 (i + 1) 0 hpar]
      rfl
    | some pr =>
      unfold topFuel at htf
      rw [hrp] at htf
      cases htf
  | succ k ih =>
    intro i c hc htf
    cases hrp : resolvedParent C c with
    | none =>
      refine ⟨1, by omega, ?_⟩
      have hpar : ((commentsTreePreserveOrder emptyHeap C).1.get (i + 1)).parent = some 0 := by
        rw [(build_master C hnd).2 i c hc, targetOf_of_resolvedParent_none C c hrp]
      rw [pIter_succ _ 0 (i + 1) 0 hpar]
      rfl
    | some pr =>
      unfold topFuel at htf
      rw [hrp] at htf
      obtain ⟨j0, hj0, htV⟩ := targetOf_of_resolvedParent_some C hnd c pr hrp
      obtain ⟨j, hjle, hjp⟩ := ih j0 pr hj0 htf
      refine ⟨j + 1, by omega, ?_⟩
      have hpar : ((commentsTreePreserveOrder emptyHeap C).1.get (i + 1)).parent =
          some (j0 + 1) := by
        rw [(build_master C hnd).2 i c hc, htV]
      rw [pIter_succ _ j (i + 1) (j0 + 1) hpar]
      exact hjp

/-- C8 (amended): for a batch with pairwise-distinct ids whose in-batch
`parentId` chains each resolve to a top-level record in fewer than `|C|` hops
(as acyclicity guarantees), every node of the built tree — root included —
reaches the synthetic root by following `parent` links in at most `|C|`
steps.  The original claim's parenthetical (self-parent records included) is
false: see the counterexample. -/
theorem C8_parent_chains_reach_root (C : List Comment) (hnd : (idsOf C).Nodup)
    (hterm : ∀ c ∈ C, topFuel C (C.length - 1) c = true) :
    ∀ a, a < (commentsTreePreserveOrder emptyHeap C).1.size →
      ∃ k, k ≤ C.length ∧
        pIter (commentsTreePreserveOrder emptyHeap C).1 k a =
          some (commentsTreePreserveOrder emptyHeap C).2 := by
  intro a ha
  have h2 : (commentsTreePreserveOrder emptyHeap C).2 = 0 := by rw [build_unfold]
  rw [h2]
  rw [build_size] at ha
  cases a with
  | zero => exact ⟨0, Nat.zero_le _, rfl⟩
  | succ i =>
    have hi : i < C.length := by omega
    have hc : C[i]? = some (C.getD i ⟨"", none⟩) := by
      rw [List.getElem?_eq_getElem hi]
      rw [List.getD_eq_getElem _ _ hi]
    have hmem : C.getD i ⟨"", none⟩ ∈ C := mem_of_getElem?C hc
    obtain ⟨j, hjle, hjp⟩ := chain_reaches_root C hnd (C.length - 1) i _ hc (hterm _ hmem)
    exact ⟨j, by omega, hjp⟩

theorem C8_parent_chains_reach_root_witness :
    ((idsOf [⟨"a", none⟩, ⟨"b", some "a"⟩]).Nodup ∧
      (∀ c ∈ ([⟨"a", none⟩, ⟨"b", some "a"⟩] : List Comment),
        topFuel [⟨"a", none⟩, ⟨"b", some "a"⟩]
          (([⟨"a", none⟩, ⟨"b", some "a"⟩] : List Comment).length - 1) c = true) ∧
      2 < (commentsTreePreserveOrder emptyHeap [⟨"a", none⟩, ⟨"b", some "a"⟩]).1.size) ∧
    (∃ k, k ≤ ([⟨"a", none⟩, ⟨"b", some "a"⟩] : List Comment).length ∧
      pIter (commentsTreePreserveOrder emptyHeap [⟨"a", none⟩, ⟨"b", some "a"⟩]).1 k 2 =
        some (commentsTreePreserveOrder emptyHeap [⟨"a", none⟩, ⟨"b", some "a"⟩]).2) :=
  ⟨⟨by decide, by decide, by decide⟩,
    C8_parent_chains_reach_root [⟨"a", none⟩, ⟨"b", some "a"⟩] (by decide) (by decide)
      2 (by decide)⟩

/-- C8 as stated is false of the code: for the batch `[{id:"a",
parentId:"a"}]` the record's node gets itself as parent, so no number of
parent-link steps bounded by the batch size reaches the root. -/
theorem C8_counterexample :
    ¬ (∀ a, a < (commentsTreePreserveOrder emptyHeap [⟨"a", some "a"⟩]).1.size →
      ∃ k, k ≤ ([⟨"a", some "a"⟩] : List Comment).length ∧
        pIter (commentsTreePreserveOrder emptyHeap [⟨"a", some "a"⟩]).1 k a =
          some (commentsTreePreserveOrder emptyHeap [⟨"a", some "a"⟩]).2) := by
  intro hx
  obtain ⟨k, hk, hp⟩ := hx 1 (by decide)
  have hk2 : k ≤ 1 := by simpa using hk
  interval_cases k
  · exact absurd hp (by decide)
  · exact absurd hp (by decide)

theorem records_nodup (C : List Comment) (hnd : (idsOf C).Nodup) : C.Nodup :=
  List.Nodup.of_map _ hnd

theorem build_children_at (C : List Comment) (hnd : (idsOf C).Nodup) (j : Nat)
    (hj : j < C.length + 1) :
    ((commentsTreePreserveOrder emptyHeap C).1.get j).children = pushesOfList C C j := by
  cases j with
  | zero => rw [(build_master C hnd).1]
  | succ i =>
    have hi : i < C.length := by omega
    have hc : C[i]? = some (C.getD i ⟨"", none⟩) := by
      rw [List.getElem?_eq_getElem hi, List.getD_eq_getElem _ _ hi]
    rw [(build_master C hnd).2 i _ hc]

theorem mem_pushes_elim (C P : List Comment) (t b : Nat) (hb : b ∈ pushesOfList C P t) :
    ∃ c2 ∈ P, targetOf C c2 = t ∧ b = addrInMap C c2 := by
  unfold pushesOfList at hb
  obtain ⟨c2, hc2, hf⟩ := List.mem_filterMap.mp hb
  by_cases hx : targetOf C c2 = t
  · rw [if_pos hx] at hf
    exact ⟨c2, hc2, hx, (Option.some.inj hf).symm⟩
  · rw [if_neg hx] at hf
    cases hf

theorem pushes_count_general (C : List Comment) (hnd : (idsOf C).Nodup) (i : Nat)
    (c : Comment) (hc : C[i]? = some c) (t : Nat) :
    ∀ P : List Comment, (∀ c2 ∈ P, c2 ∈ C) →
      (pushesOfList C P t).count (i + 1) =
        if targetOf C c = t then P.count c else 0 := by
  intro P
  induction P with
  | nil =>
    intro _
    simp [pushesOfList]
  | cons c2 P ih =>
    intro hsub
    have hc2C : c2 ∈ C := hsub c2 (List.mem_cons_self c2 P)
    have hsub2 : ∀ c3 ∈ P, c3 ∈ C := fun c3 h3 => hsub c3 (List.mem_cons_of_mem c2 h3)
    obtain ⟨j, hj⟩ := getElem?_of_mem_nat hc2C
    have haddr2 : addrInMap C c2 = j + 1 := addrInMap_of_index C hnd j c2 hj
    have heqv : (addrInMap C c2 = i + 1) ↔ c2 = c := by
      rw [haddr2]
      constructor
      · intro hji
        have hji2 : j = i := by omega
        subst hji2
        rw [hj] at hc
        exact Option.some.inj hc
      · intro hcc
        have := idsOf_index_inj C hnd i j c c2 hc hj (by rw [hcc])
        omega
    have ihx := ih hsub2
    unfold pushesOfList at ihx ⊢
    rw [List.filterMap_cons]
    by_cases hx : targetOf C c2 = t
    · rw [if_pos hx, List.count_cons, ihx, List.count_cons]
      by_cases hcc : c2 = c
      · have h1 : (addrInMap C c2 == i + 1) = true := by
          rw [beq_iff_eq]
          exact heqv.mpr hcc
        have h2 : (c2 == c) = true := by
          rw [beq_iff_eq]
          exact hcc
        have htc : targetOf C c = t := by rw [← hcc]; exact hx
        rw [h1, h2, if_pos htc, if_pos htc]
      · have h1 : (addrInMap C c2 == i + 1) = false := by
          rw [beq_eq_false_iff_ne]
          exact fun hy => hcc (heqv.mp hy)
        have h2 : (c2 == c) = false := by
          rw [beq_eq_false_iff_ne]
          exact hcc
        rw [h1, h2]
        by_cases hxc : targetOf C c = t
        · rw [if_pos hxc, if_pos hxc]
        · rw [if_neg hxc, if_neg hxc]
          simp
    · rw [if_neg hx, ihx, List.count_cons]
      by_cases hcc : c2 = c
      · have htc : ¬ targetOf C c = t := by rw [← hcc]; exact hx
        rw [if_neg htc, if_neg htc]
      · have h2 : (c2 == c) = false := by
          rw [beq_eq_false_iff_ne]
          exact hcc
        rw [h2]
        by_cases hxc : targetOf C c = t
        · rw [if_pos hxc, if_pos hxc]
          simp
        · rw [if_neg hxc, if_neg hxc]

theorem sum_indicator_range (x t : Nat) : ∀ m : Nat, t < m →
    ((List.range m).map (fun j => if t = j then x else 0)).sum = x := by
  intro m
  induction m with
  | zero => intro h; omega
  | succ m ih =>
    intro ht
    rw [List.range_succ, List.map_append, List.sum_append]
    by_cases htm : t = m
    · subst htm
      have hz : ((List.range t).map (fun j => if t = j then x else 0)).sum = 0 := by
        apply List.sum_eq_zero
        intro y hy
        obtain ⟨j, hj, hjy⟩ := List.mem_map.mp hy
        rw [List.mem_range] at hj
        rw [← hjy, if_neg (by omega)]
      rw [hz]
      simp
    · have ht2 : t < m := by omega
      rw [ih ht2]
      simp [htm]

theorem sum_zero_range (f : Nat → Nat) (m : Nat) (hf : ∀ j, j < m → f j = 0) :
    ((List.range m).map f).sum = 0 := by
  apply List.sum_eq_zero
  intro y hy
  obtain ⟨j, hj, hjy⟩ := List.mem_map.mp hy
  rw [List.mem_range] at hj
  rw [← hjy, hf j hj]

theorem occurrencesIn_record (C : List Comment) (hnd : (idsOf C).Nodup) (i : Nat)
    (c : Comment) (hc : C[i]? = some c) :
    occurrencesIn (commentsTreePreserveOrder emptyHeap C).1 (i + 1) = 1 := by
  unfold occurrencesIn
  rw [build_size]
  have hcount : ∀ j, j < C.length + 1 →
      (((commentsTreePreserveOrder emptyHeap C).1.get j).children).count (i + 1) =
        if targetOf C c = j then 1 else 0 := by
    intro j hj
    rw [build_children_at C hnd j hj,
      pushes_count_general C hnd i c hc j C (fun c2 h2 => h2)]
    have hone : C.count c = 1 :=
      List.count_eq_one_of_mem (records_nodup C hnd) (mem_of_getElem?C hc)
    rw [hone]
  have hfun : ((List.range (C.length + 1)).map
        (fun j => (((commentsTreePreserveOrder emptyHeap C).1.get j).children).count (i + 1)))
      = ((List.range (C.length + 1)).map (fun j => if targetOf C c = j then 1 else 0)) := by
    apply List.map_congr_left
    intro j hj
    rw [List.mem_range] at hj
    exact hcount j hj
  rw [hfun]
  exact sum_indicator_range 1 (targetOf C c) (C.length + 1)
    (Nat.lt_succ_of_le (targetOf_le C c))

theorem occurrencesIn_root (C : List Comment) (hnd : (idsOf C).Nodup) :
    occurrencesIn (commentsTreePreserveOrder emptyHeap C).1 0 = 0 := by
  unfold occurrencesIn
  rw [build_size]
  apply sum_zero_range
  intro j hj
  rw [build_children_at C hnd j hj]
  rw [List.count_eq_zero]
  intro hmem
  obtain ⟨c2, hc2, _, haddr⟩ := mem_pushes_elim C C j 0 hmem
  obtain ⟨j2, hj2⟩ := getElem?_of_mem_nat hc2
  rw [addrInMap_of_index C hnd j2 c2 hj2] at haddr
  cases haddr

theorem reach_of_chain (C : List Comment) (hnd : (idsOf C).Nodup) :
    ∀ (k i : Nat) (c : Comment), C[i]? = some c → topFuel C k c = true →
      Reach (commentsTreePreserveOrder emptyHeap C).1 0 (i + 1) := by
  intro k
  induction k with
  | zero =>
    intro i c hc htf
    cases hrp : resolvedParent C c with
    | none =>
      apply Reach.child Reach.root
      rw [(build_master C hnd).1]
      exact mem_pushes_of_target C hnd i c hc 0 (targetOf_of_resolvedParent_none C c hrp)
    | some pr =>
      unfold topFuel at htf
      rw [hrp] at htf
      cases htf
  | succ k ih =>
    intro i c hc htf
    cases hrp : resolvedParent C c with
    | none =>
      apply Reach.child Reach.root
      rw [(build_master C hnd).1]
      exact mem_pushes_of_target C hnd i c hc 0 (targetOf_of_resolvedParent_none C c hrp)
    | some pr =>
      unfold topFuel at htf
      rw [hrp] at htf
      obtain ⟨j0, hj0, htV⟩ := targetOf_of_resolvedParent_some C hnd c pr hrp
      apply Reach.child (ih j0 pr hj0 htf)
      rw [(build_master C hnd).2 j0 pr hj0]
      exact mem_pushes_of_target C hnd i c hc (j0 + 1) htV

theorem reach_iff (C : List Comment) (hnd : (idsOf C).Nodup)
    (hterm : ∀ c ∈ C, topFuel C (C.length - 1) c = true) (a : Nat) :
    Reach (commentsTreePreserveOrder emptyHeap C).1 0 a ↔ a < C.length + 1 := by
  constructor
  · intro hr
    induction hr with
    | root => omega
    | child hra hb iha =>
      rename_i a2 b2
      rw [build_children_at C hnd a2 iha] at hb
      obtain ⟨c2, hc2, _, haddr⟩ := mem_pushes_elim C C a2 b2 hb
      obtain ⟨j2, hj2⟩ := getElem?_of_mem_nat hc2
      rw [addrInMap_of_index C hnd j2 c2 hj2] at haddr
      have : j2 < C.length := by
        by_contra hx
        rw [List.getElem?_eq_none (Nat.le_of_not_lt hx)] at hj2
        cases hj2
      omega
  · intro ha
    cases a with
    | zero => exact Reach.root
    | succ i =>
      have hi : i < C.length := by omega
      have hc : C[i]? = some (C.getD i ⟨"", none⟩) := by
        rw [List.getElem?_eq_getElem hi, List.getD_eq_getElem _ _ hi]
      exact reach_of_chain C hnd (C.length - 1) i _ hc
        (hterm _ (mem_of_getElem?C hc))

/-- C7 (amended): for a batch with pairwise-distinct ids whose in-batch
parent chains are acyclic (each resolves to a top-level record in fewer than
`|C|` hops), every record's node appears in exactly one children sequence of
the structure (exactly once), the root in none, and the tree reachable from
the root has exactly `1 + |C|` nodes.  Without the acyclicity condition the
node-count conjunct fails: see the counterexample. -/
theorem C7_record_count (C : List Comment) (hnd : (idsOf C).Nodup)
    (hterm : ∀ c ∈ C, topFuel C (C.length - 1) c = true) :
    (∀ i c, C[i]? = some c →
      occurrencesIn (commentsTreePreserveOrder emptyHeap C).1 (i + 1) = 1) ∧
    occurrencesIn (commentsTreePreserveOrder emptyHeap C).1
      (commentsTreePreserveOrder emptyHeap C).2 = 0 ∧
    Set.ncard {a | Reach (commentsTreePreserveOrder emptyHeap C).1
        (commentsTreePreserveOrder emptyHeap C).2 a} = 1 + C.length := by
  have h2 : (commentsTreePreserveOrder emptyHeap C).2 = 0 := by rw [build_unfold]
  rw [h2]
  refine ⟨fun i c hc => occurrencesIn_record C hnd i c hc, occurrencesIn_root C hnd, ?_⟩
  have hset : {a | Reach (commentsTreePreserveOrder emptyHeap C).1 0 a} =
      ↑(Finset.range (C.length + 1)) := by
    ext a
    simp only [Set.mem_setOf_eq, Finset.coe_range, Set.mem_Iio]
    exact reach_iff C hnd hterm a
  rw [hset, Set.ncard_coe_Finset, Finset.card_range]
  omega

theorem C7_record_count_witness :
    ((idsOf [⟨"a", none⟩, ⟨"b", some "a"⟩, ⟨"c", none⟩]).Nodup ∧
      (∀ c ∈ ([⟨"a", none⟩, ⟨"b", some "a"⟩, ⟨"c", none⟩] : List Comment),
        topFuel [⟨"a", none⟩, ⟨"b", some "a"⟩, ⟨"c", none⟩]
          (([⟨"a", none⟩, ⟨"b", some "a"⟩, ⟨"c", none⟩] : List Comment).length - 1) c =
          true)) ∧
    ((∀ i c, ([⟨"a", none⟩, ⟨"b", some "a"⟩, ⟨"c", none⟩] : List Comment)[i]? = some c →
        occurrencesIn (commentsTreePreserveOrder emptyHeap
          [⟨"a", none⟩, ⟨"b", some "a"⟩, ⟨"c", none⟩]).1 (i + 1) = 1) ∧
      occurrencesIn (commentsTreePreserveOrder emptyHeap
          [⟨"a", none⟩, ⟨"b", some "a"⟩, ⟨"c", none⟩]).1
        (commentsTreePreserveOrder emptyHeap
          [⟨"a", none⟩, ⟨"b", some "a"⟩, ⟨"c", none⟩]).2 = 0 ∧
      Set.ncard {a | Reach (commentsTreePreserveOrder emptyHeap
            [⟨"a", none⟩, ⟨"b", some "a"⟩, ⟨"c", none⟩]).1
          (commentsTreePreserveOrder emptyHeap
            [⟨"a", none⟩, ⟨"b", some "a"⟩, ⟨"c", none⟩]).2 a} =
        1 + ([⟨"a", none⟩, ⟨"b", some "a"⟩, ⟨"c", none⟩] : List Comment).length) :=
  ⟨⟨by decide, by decide⟩,
    C7_record_count [⟨"a", none⟩, ⟨"b", some "a"⟩, ⟨"c", none⟩] (by decide) (by decide)⟩

/-- C7 as stated is false of the code: for the mutually-referencing batch
`[{id:"a", parentId:"b"}, {id:"b", parentId:"a"}]` the two nodes are attached
to each other and not to the root, so the tree reachable from the root holds
1 node, not `1 + |C| = 3`. -/
theorem C7_counterexample :
    ¬ (Set.ncard {a | Reach (commentsTreePreserveOrder emptyHeap
          [⟨"a", some "b"⟩, ⟨"b", some "a"⟩]).1
        (commentsTreePreserveOrder emptyHeap [⟨"a", some "b"⟩, ⟨"b", some "a"⟩]).2 a} =
      1 + ([⟨"a", some "b"⟩, ⟨"b", some "a"⟩] : List Comment).length) := by
  intro hx
  have h2 : (commentsTreePreserveOrder emptyHeap
      [⟨"a", some "b"⟩, ⟨"b", some "a"⟩]).2 = 0 := by rw [build_unfold]
  rw [h2] at hx
  have hsub : ∀ a, Reach (commentsTreePreserveOrder emptyHeap
      [⟨"a", some "b"⟩, ⟨"b", some "a"⟩]).1 0 a → a = 0 := by
    intro a hr
    induction hr with
    | root => rfl
    | child hra hb iha =>
      rw [iha] at hb
      have hch : ((commentsTreePreserveOrder emptyHeap
          [⟨"a", some "b"⟩, ⟨"b", some "a"⟩]).1.get 0).children = [] := by decide
      rw [hch] at hb
      cases hb
  have hset : {a | Reach (commentsTreePreserveOrder emptyHeap
      [⟨"a", some "b"⟩, ⟨"b", some "a"⟩]).1 0 a} = {0} := by
    ext a
    simp only [Set.mem_setOf_eq, Set.mem_singleton_iff]
    exact ⟨hsub a, fun ha => ha ▸ Reach.root⟩
  rw [hset, Set.ncard_singleton] at hx
  simp at hx

/-! ## C6: reply-batch dedup leaves the node count unchanged -/

theorem commentsTree_nil_existing (h : Heap) (r : Nat) :
    commentsTree h [] (some r) = (h, r) := rfl

theorem itemsGet_mapReplace (k : String) (v : Entry) :
    ∀ items : List (String × Entry), items.any (fun e => e.1 == k) = true →
      itemsGet (items.map (fun e => if e.1 == k then (k, v) else e)) k = some v := by
  intro items
  induction items with
  | nil => intro hk; exact Bool.noConfusion hk
  | cons e0 items ih =>
    intro hk
    simp only [List.map_cons]
    by_cases he0 : (e0.1 == k) = true
    · rw [if_pos he0]
      unfold itemsGet
      rw [List.find?_cons_of_pos _ (by simp)]
      rfl
    · have he0b : (e0.1 == k) = false := by
        cases hb : (e0.1 == k) with
        | true => exact absurd hb he0
        | false => rfl
      rw [if_neg he0]
      unfold itemsGet
      rw [List.find?_cons_of_neg _ (by simpa using he0)]
      apply ih
      rw [List.any_cons, he0b] at hk
      simpa using hk

theorem itemsGet_itemsSet_self (items : List (String × Entry)) (k : String) (v : Entry) :
    itemsGet (itemsSet items k v) k = some v := by
  unfold itemsSet
  by_cases hk : items.any (fun e => e.1 == k) = true
  · rw [if_pos hk]
    exact itemsGet_mapReplace k v items hk
  · rw [if_neg hk]
    unfold itemsGet
    rw [List.find?_append]
    have hfn : items.find? (fun e => e.1 == k) = none := by
      rw [List.find?_eq_none]
      intro a ha hpa
      exact hk (List.any_eq_true.mpr ⟨a, ha, hpa⟩)
    rw [hfn, List.find?_cons_of_pos _ (by simp)]
    rfl

theorem countNodes_alloc (h : Heap) (nd : Node) (hcl : ClosedHeap h) :
    ∀ (f a : Nat), a < h.size → countNodes (h.alloc nd).1 f a = countNodes h f a := by
  intro f
  induction f with
  | zero => intro a _; rfl
  | succ f ih =>
    intro a ha
    show 1 + (((h.alloc nd).1.get a).children.map (countNodes (h.alloc nd).1 f)).sum
        = 1 + ((h.get a).children.map (countNodes h f)).sum
    rw [Heap.get_alloc_lt h nd a ha]
    have hmap : (h.get a).children.map (countNodes (h.alloc nd).1 f) =
        (h.get a).children.map (countNodes h f) := by
      apply List.map_congr_left
      intro b hb
      exact ih b ((hcl a ha).1 b hb)
    rw [hmap]

/-- C6: when every record of a reply batch is already present in the stored
tree (`searchTree` finds each id), the reply-batch event leaves the node
count of the post's tree unchanged for every traversal depth: the batch is
entirely discarded and the new root is a plain copy of the old one. -/
theorem C6_reply_batch_dedup (h : Heap) (s : CommentsState) (p : String) (e : Entry)
    (he : itemsGet s.items p = some e) (hcl : ClosedHeap h)
    (hroot : e.comments < h.size) (B : List Comment)
    (hall : ∀ c ∈ B, searchTree h e.comments c.id ≠ none) (now : Nat) :
    ∃ e2, itemsGet (commentsReducer h s (.replyCommentsAdded p B) now).2.items p = some e2 ∧
      ∀ f, countNodes (commentsReducer h s (.replyCommentsAdded p B) now).1 f e2.comments =
        countNodes h f e.comments := by
  have hfil : B.filter (fun c => searchTree h e.comments c.id == none) = [] := by
    rw [List.filter_eq_nil_iff]
    intro c hc
    simp only [beq_iff_eq]
    exact fun hx => hall c hc hx
  have hred : commentsReducer h s (.replyCommentsAdded p B) now =
      ((h.alloc (h.get e.comments)).1,
        ⟨s.ids, itemsSet s.items p { e with comments := (h.alloc (h.get e.comments)).2, lastFetchedAt := now }⟩) := by
    simp only [commentsReducer]
    rw [he]
    simp only [Option.getD_some]
    rw [hfil, commentsTree_nil_existing]
  rw [hred]
  refine ⟨{ e with comments := (h.alloc (h.get e.comments)).2, lastFetchedAt := now },
    itemsGet_itemsSet_self s.items p _, ?_⟩
  intro f
  cases f with
  | zero => rfl
  | succ f =>
    show 1 + (((h.alloc (h.get e.comments)).1.get
        (h.alloc (h.get e.comments)).2).children.map
          (countNodes (h.alloc (h.get e.comments)).1 f)).sum
      = 1 + ((h.get e.comments).children.map (countNodes h f)).sum
    have hsz : (h.alloc (h.get e.comments)).2 = h.size := rfl
    rw [hsz, Heap.get_alloc_self]
    have hmap : (h.get e.comments).children.map
        (countNodes (h.alloc (h.get e.comments)).1 f) =
        (h.get e.comments).children.map (countNodes h f) := by
      apply List.map_congr_left
      intro b hb
      exact countNodes_alloc h _ hcl f b ((hcl e.comments hroot).1 b hb)
    rw [hmap]

theorem C6_reply_batch_dedup_witness :
    (itemsGet ([("p", ⟨0, none, 5, 1, 1⟩)] : List (String × Entry)) "p" =
        some ⟨0, none, 5, 1, 1⟩ ∧
      ClosedHeap ⟨[⟨none, [1], none, 0, false⟩, ⟨some ⟨"a", none⟩, [], some 0, 0, false⟩]⟩ ∧
      (0 : Nat) < (⟨[⟨none, [1], none, 0, false⟩,
        ⟨some ⟨"a", none⟩, [], some 0, 0, false⟩]⟩ : Heap).size ∧
      (∀ c ∈ ([⟨"a", none⟩] : List Comment),
        searchTree ⟨[⟨none, [1], none, 0, false⟩, ⟨some ⟨"a", none⟩, [], some 0, 0, false⟩]⟩
          0 c.id ≠ none)) ∧
    (∃ e2, itemsGet (commentsReducer
        ⟨[⟨none, [1], none, 0, false⟩, ⟨some ⟨"a", none⟩, [], some 0, 0, false⟩]⟩
        ⟨[], [("p", ⟨0, none, 5, 1, 1⟩)]⟩ (.replyCommentsAdded "p" [⟨"a", none⟩]) 9).2.items
          "p" = some e2 ∧
      ∀ f, countNodes (commentsReducer
          ⟨[⟨none, [1], none, 0, false⟩, ⟨some ⟨"a", none⟩, [], some 0, 0, false⟩]⟩
          ⟨[], [("p", ⟨0, none, 5, 1, 1⟩)]⟩ (.replyCommentsAdded "p" [⟨"a", none⟩]) 9).1 f
            e2.comments =
        countNodes ⟨[⟨none, [1], none, 0, false⟩,
          ⟨some ⟨"a", none⟩, [], some 0, 0, false⟩]⟩ f 0) :=
  ⟨⟨by decide, by unfold ClosedHeap; decide, by decide, by decide⟩,
    C6_reply_batch_dedup
      ⟨[⟨none, [1], none, 0, false⟩, ⟨some ⟨"a", none⟩, [], some 0, 0, false⟩]⟩
      ⟨[], [("p", ⟨0, none, 5, 1, 1⟩)]⟩ "p" ⟨0, none, 5, 1, 1⟩ (by decide)
      (by unfold ClosedHeap; decide) (by decide) [⟨"a", none⟩] (by decide) 9⟩

/-! ## C5: new-comment event, z-index and sibling preservation -/

/-- The comment id stored at an address. -/
def idAt (h : Heap) (a : Nat) : Option String := (h.get a).comment.map (·.id)

/-- `h2` extends `h`: same values below `h`'s allocation frontier. -/
def HExt (h h2 : Heap) : Prop := h.size ≤ h2.size ∧ ∀ a, a < h.size → h2.get a = h.get a

theorem HExt_refl (h : Heap) : HExt h h := ⟨Nat.le_refl _, fun _ _ => rfl⟩

theorem HExt_trans {h h2 h3 : Heap} (h12 : HExt h h2) (h23 : HExt h2 h3) : HExt h h3 :=
  ⟨Nat.le_trans h12.1 h23.1,
    fun a ha => by rw [h23.2 a (Nat.lt_of_lt_of_le ha h12.1), h12.2 a ha]⟩

theorem HExt_alloc (h : Heap) (nd : Node) : HExt h (h.alloc nd).1 :=
  ⟨by rw [Heap.size_alloc]; omega, fun a ha => Heap.get_alloc_lt h nd a ha⟩

theorem findSome?_inv {α β : Type} (f : α → Option β) :
    ∀ (l : List α) (b : β), l.findSome? f = some b → ∃ a ∈ l, f a = some b := by
  intro l
  induction l with
  | nil => intro b hb; cases hb
  | cons x l ih =>
    intro b hb
    have hb2 : (match f x with
        | some v => some v
        | none => l.findSome? f) = some b := hb
    cases hf : f x with
    | some v =>
      rw [hf] at hb2
      exact ⟨x, by simp, by rw [hf]; exact hb2⟩
    | none =>
      rw [hf] at hb2
      obtain ⟨a, ha, hfa⟩ := ih b hb2
      exact ⟨a, by simp [ha], hfa⟩

theorem searchNode_comment (h : Heap) (id : String) :
    ∀ (f a b : Nat), searchNode h id f a = some b → ((h.get b).comment).isSome = true := by
  intro f
  induction f with
  | zero =>
    intro a b hx
    cases hx
  | succ f ih =>
    intro a b hx
    unfold searchNode at hx
    cases hcm : (h.get a).comment with
    | some c =>
      rw [hcm] at hx
      have hx2 : (if c.id == id then some a
          else (h.get a).children.findSome? (searchNode h id f)) = some b := hx
      by_cases hid : (c.id == id) = true
      · rw [if_pos hid] at hx2
        obtain rfl := Option.some.inj hx2
        rw [hcm]
        rfl
      · rw [if_neg hid] at hx2
        obtain ⟨ch, _, hsx⟩ := findSome?_inv _ _ b hx2
        exact ih ch b hsx
    | none =>
      rw [hcm] at hx
      have hx2 : (h.get a).children.findSome? (searchNode h id f) = some b := hx
      obtain ⟨ch, _, hsx⟩ := findSome?_inv _ _ b hx2
      exact ih ch b hsx

theorem searchTree_lt (h : Heap) (r : Nat) (id : String) (b : Nat)
    (hb : searchTree h r id = some b) : b < h.size := by
  by_contra hx
  have hcm := searchNode_comment h id (h.size + 1) r b hb
  rw [Heap.get_of_ge h b (Nat.le_of_not_lt hx)] at hcm
  cases hcm

theorem addTarget_lt (h : Heap) (r : Nat) (c : Comment) (hr : r < h.size) :
    addTarget h r c < h.size := by
  unfold addTarget
  by_cases ht : truthy c.parentId = true
  · rw [if_pos ht]
    cases hs : searchTree h r (c.parentId.getD "") with
    | some t => exact searchTree_lt h r _ t hs
    | none => exact hr
  · rw [if_neg ht]
    exact hr

theorem addComment_snd (h : Heap) (r : Nat) (c : Comment) : (addComment h r c).2 = h.size := rfl

theorem addComment_fst (h : Heap) (r : Nat) (c : Comment) :
    (addComment h r c).1 =
      (h.alloc { mkNode c with parent := some (addTarget h r c) }).1.set (addTarget h r c)
        { (h.alloc { mkNode c with parent := some (addTarget h r c) }).1.get (addTarget h r c)
            with children :=
          ((h.alloc { mkNode c with parent := some (addTarget h r c) }).1.get
            (addTarget h r c)).children ++ [h.size] } := rfl

theorem addComment_size (h : Heap) (r : Nat) (c : Comment) :
    (addComment h r c).1.size = h.size + 1 := by
  rw [addComment_fst, Heap.size_set, Heap.size_alloc]

theorem addComment_get_new (h : Heap) (r : Nat) (c : Comment) (hr : r < h.size) :
    (addComment h r c).1.get h.size = { mkNode c with parent := some (addTarget h r c) } := by
  rw [addComment_fst]
  rw [Heap.get_set_ne _ (addTarget h r c) h.size _ (by
    have := addTarget_lt h r c hr
    omega)]
  exact Heap.get_alloc_self h _

theorem addComment_get_target (h : Heap) (r : Nat) (c : Comment) (hr : r < h.size) :
    (addComment h r c).1.get (addTarget h r c) =
      { h.get (addTarget h r c) with
          children := (h.get (addTarget h r c)).children ++ [h.size] } := by
  have hlt := addTarget_lt h r c hr
  rw [addComment_fst]
  rw [Heap.get_set_self _ (addTarget h r c) _ (by rw [Heap.size_alloc]; omega)]
  rw [Heap.get_alloc_lt h _ _ hlt]

theorem addComment_get_other (h : Heap) (r : Nat) (c : Comment) (hr : r < h.size)
    (a : Nat) (ha : a < h.size) (hne : a ≠ addTarget h r c) :
    (addComment h r c).1.get a = h.get a := by
  rw [addComment_fst]
  rw [Heap.get_set_ne _ (addTarget h r c) a _ hne]
  exact Heap.get_alloc_lt h _ a ha

theorem ascend_lt (h : Heap)
    (hpar : ∀ j, j < h.size → ∀ q, (h.get j).parent = some q → q < h.size) :
    ∀ (f a : Nat), a < h.size → ascend h f a < h.size := by
  intro f
  induction f with
  | zero => intro a ha; exact ha
  | succ f ih =>
    intro a ha
    show (match (h.get a).parent with
      | some q => if ((h.get q).parent).isSome then ascend h f q else a
      | none => a) < h.size
    cases hq : (h.get a).parent with
    | none => exact ha
    | some q =>
      show (if ((h.get q).parent).isSome then ascend h f q else a) < h.size
      by_cases hqq : ((h.get q).parent).isSome = true
      · rw [if_pos hqq]
        exact ih q (hpar a ha q hq)
      · rw [if_neg (by simpa using hqq)]
        exact ha

theorem getD_append_left (l1 l2 : List Nat) (k d : Nat) (h : k < l1.length) :
    (l1 ++ l2).getD k d = l1.getD k d := by
  simp [List.getD, List.getElem?_append, h]

theorem getD_append_last (l1 : List Nat) (x d : Nat) : (l1 ++ [x]).getD l1.length d = x := by
  simp [List.getD, List.getElem?_append_right (Nat.le_refl l1.length)]

theorem copyStep_eq_copy (topA : Nat) (acc : Heap × List Nat) (ch : Nat)
    (hm : ((acc.1.get ch).comment.map (·.id)) = ((acc.1.get topA).comment.map (·.id))) :
    copyStep topA acc ch = ((acc.1.alloc (acc.1.get topA)).1, acc.2 ++ [acc.1.size]) := by
  unfold copyStep
  rw [if_pos hm]
  rfl

theorem copyStep_eq_keep (topA : Nat) (acc : Heap × List Nat) (ch : Nat)
    (hm : ¬ ((acc.1.get ch).comment.map (·.id)) = ((acc.1.get topA).comment.map (·.id))) :
    copyStep topA acc ch = (acc.1, acc.2 ++ [ch]) := by
  unfold copyStep
  rw [if_neg hm]

theorem fold_copy_spec (h1 : Heap) (topA : Nat) (htopA : topA < h1.size) :
    ∀ (chs : List Nat), (∀ ch ∈ chs, ch < h1.size) →
      ∀ (hh : Heap) (l0 : List Nat), HExt h1 hh → (∀ x ∈ l0, x < hh.size) →
        HExt hh (chs.foldl (copyStep topA) (hh, l0)).1 ∧
        (∀ x ∈ (chs.foldl (copyStep topA) (hh, l0)).2,
          x < (chs.foldl (copyStep topA) (hh, l0)).1.size) ∧
        (chs.foldl (copyStep topA) (hh, l0)).2.length = l0.length + chs.length ∧
        (∀ k, k < l0.length →
          (chs.foldl (copyStep topA) (hh, l0)).2.getD k 0 = l0.getD k 0) ∧
        (∀ k, k < chs.length →
          (idAt h1 (chs.getD k 0) = idAt h1 topA →
            (chs.foldl (copyStep topA) (hh, l0)).1.get
              ((chs.foldl (copyStep topA) (hh, l0)).2.getD (l0.length + k) 0) =
              h1.get topA) ∧
          (idAt h1 (chs.getD k 0) ≠ idAt h1 topA →
            (chs.foldl (copyStep topA) (hh, l0)).2.getD (l0.length + k) 0 =
              chs.getD k 0)) := by
  intro chs
  induction chs with
  | nil =>
    intro _ hh l0 hext hl0
    exact ⟨HExt_refl hh, hl0, by simp, fun k _ => rfl, fun k hk => absurd hk (by simp)⟩
  | cons ch chs ih =>
    intro hlt hh l0 hext hl0
    have hch_lt : ch < h1.size := hlt ch (by simp)
    have hlt2 : ∀ c2 ∈ chs, c2 < h1.size := fun c2 h2 => hlt c2 (by simp [h2])
    have hstab_ch : hh.get ch = h1.get ch := hext.2 ch hch_lt
    have hstab_top : hh.get topA = h1.get topA := hext.2 topA htopA
    rw [List.foldl_cons]
    by_cases hm : idAt h1 ch = idAt h1 topA
    · have hm2 : ((hh.get ch).comment.map (·.id)) = ((hh.get topA).comment.map (·.id)) := by
        rw [hstab_ch, hstab_top]
        exact hm
      rw [copyStep_eq_copy topA (hh, l0) ch hm2]
      have hext2 : HExt h1 (hh.alloc (hh.get topA)).1 :=
        HExt_trans hext (HExt_alloc hh (hh.get topA))
      have hszlt : hh.size < (hh.alloc (hh.get topA)).1.size := by
        rw [Heap.size_alloc]
        omega
      have hl02 : ∀ x ∈ l0 ++ [hh.size], x < (hh.alloc (hh.get topA)).1.size := by
        intro x hx
        rw [List.mem_append, List.mem_singleton] at hx
        cases hx with
        | inl hx => exact Nat.lt_trans (hl0 x hx) hszlt
        | inr hx => rw [hx]; exact hszlt
      obtain ⟨ihE, ihB, ihL, ihP, ihK⟩ :=
        ih hlt2 (hh.alloc (hh.get topA)).1 (l0 ++ [hh.size]) hext2 hl02
      refine ⟨HExt_trans (HExt_alloc hh (hh.get topA)) ihE, ihB,
        by simp at ihL ⊢; omega, ?_, ?_⟩
      · intro k hk
        rw [ihP k (by simp; omega), getD_append_left _ _ _ _ hk]
      · intro k hk
        cases k with
        | zero =>
          have hpos : (chs.foldl (copyStep topA) ((hh.alloc (hh.get topA)).1,
              l0 ++ [hh.size])).2.getD l0.length 0 = hh.size := by
            rw [ihP l0.length (by simp)]
            simpa using getD_append_last l0 hh.size 0
          constructor
          · intro _
            rw [Nat.add_zero, hpos, ihE.2 hh.size hszlt, Heap.get_alloc_self, hstab_top]
          · intro hcon
            exact absurd hm (by simpa using hcon)
        | succ k2 =>
          have hk2 : k2 < chs.length := by simpa using hk
          have hidx : l0.length + (k2 + 1) = (l0 ++ [hh.size]).length + k2 := by
            simp
            omega
          constructor
          · intro hmk
            rw [hidx]
            exact (ihK k2 hk2).1 (by simpa using hmk)
          · intro hmk
            rw [hidx]
            have := (ihK k2 hk2).2 (by simpa using hmk)
            rw [this]
            simp
    · have hm2 : ¬ ((hh.get ch).comment.map (·.id)) = ((hh.get topA).comment.map (·.id)) := by
        rw [hstab_ch, hstab_top]
        exact hm
      rw [copyStep_eq_keep topA (hh, l0) ch hm2]
      have hl02 : ∀ x ∈ l0 ++ [ch], x < hh.size := by
        intro x hx
        rw [List.mem_append, List.mem_singleton] at hx
        cases hx with
        | inl hx => exact hl0 x hx
        | inr hx => rw [hx]; exact Nat.lt_of_lt_of_le hch_lt hext.1
      obtain ⟨ihE, ihB, ihL, ihP, ihK⟩ := ih hlt2 hh (l0 ++ [ch]) hext hl02
      refine ⟨ihE, ihB, by simp at ihL ⊢; omega, ?_, ?_⟩
      · intro k hk
        rw [ihP k (by simp; omega), getD_append_left _ _ _ _ hk]
      · intro k hk
        cases k with
        | zero =>
          have hpos : (chs.foldl (copyStep topA) (hh, l0 ++ [ch])).2.getD
              l0.length 0 = ch := by
            rw [ihP l0.length (by simp)]
            simpa using getD_append_last l0 ch 0
          constructor
          · intro hcon
            exact absurd (by simpa using hcon) hm
          · intro _
            rw [Nat.add_zero, hpos]
            rfl
        | succ k2 =>
          have hk2 : k2 < chs.length := by simpa using hk
          have hidx : l0.length + (k2 + 1) = (l0 ++ [ch]).length + k2 := by
            simp
            omega
          constructor
          · intro hmk
            rw [hidx]
            exact (ihK k2 hk2).1 (by simpa using hmk)
          · intro hmk
            rw [hidx]
            have := (ihK k2 hk2).2 (by simpa using hmk)
            rw [this]
            simp

theorem getD_mem_nat (l : List Nat) (k d : Nat) (hk : k < l.length) : l.getD k d ∈ l := by
  induction l generalizing k with
  | nil => simp at hk
  | cons a t ih =>
    cases k with
    | zero => rw [List.getD_cons_zero]; exact List.mem_cons_self a t
    | succ n =>
      rw [List.getD_cons_succ]
      exact List.mem_cons_of_mem a (ih n (by simpa using hk))

theorem idAt_addComment (h : Heap) (r : Nat) (c : Comment) (hr : r < h.size) (a : Nat)
    (ha : a < h.size) : idAt (addComment h r c).1 a = idAt h a := by
  by_cases hx : a = addTarget h r c
  · subst hx
    unfold idAt
    rw [addComment_get_target h r c hr]
  · unfold idAt
    rw [addComment_get_other h r c hr a ha hx]

theorem idAt_set_children (hh : Heap) (r : Nat) (L : List Nat) (a : Nat) :
    idAt (hh.set r { hh.get r with children := L }) a = idAt hh a := by
  unfold idAt
  rw [Heap.comment_set hh r { hh.get r with children := L } rfl a]

theorem idAt_alloc (hh : Heap) (nd : Node) (a : Nat) (ha : a < hh.size) :
    idAt (hh.alloc nd).1 a = idAt hh a := by
  unfold idAt
  rw [Heap.get_alloc_lt hh nd a ha]

/-- C5: for a state holding post `p` with a well-formed tree (root in range,
root's parent absent, heap closed), the new-comment event increments the
post's `zIndexTop` by exactly one when the inserted node is attached directly
under the root, and when the inserted node is a nested reply (its attachment
target has a parent) it leaves `zIndexTop` unchanged while the root's
children sequence keeps the same length, the same comment ids in the same
order, and every position whose id differs from the top-level ancestor's id
keeps the identical node reference. -/
theorem C5_new_comment_zindex (h : Heap) (s : CommentsState) (p : String) (e : Entry)
    (c : Comment) (now : Nat)
    (he : itemsGet s.items p = some e)
    (hroot_lt : e.comments < h.size)
    (hroot_par : (h.get e.comments).parent = none)
    (hcl : ClosedHeap h) :
    (addTarget h e.comments c = e.comments →
      ∃ e2, itemsGet (commentsReducer h s (.newCommentAdded p c) now).2.items p = some e2 ∧
        e2.zIndexTop = e.zIndexTop + 1) ∧
    (∀ u, (h.get (addTarget h e.comments c)).parent = some u →
      ∃ e2, itemsGet (commentsReducer h s (.newCommentAdded p c) now).2.items p = some e2 ∧
        e2.zIndexTop = e.zIndexTop ∧
        ((commentsReducer h s (.newCommentAdded p c) now).1.get e2.comments).children.length =
          (h.get e.comments).children.length ∧
        (∀ k, k < (h.get e.comments).children.length →
          idAt (commentsReducer h s (.newCommentAdded p c) now).1
              (((commentsReducer h s (.newCommentAdded p c) now).1.get
                e2.comments).children.getD k 0) =
            idAt h ((h.get e.comments).children.getD k 0) ∧
          (idAt h ((h.get e.comments).children.getD k 0) ≠
              idAt (addComment h e.comments c).1
                (ascend (addComment h e.comments c).1 (addComment h e.comments c).1.size
                  (addComment h e.comments c).2) →
            ((commentsReducer h s (.newCommentAdded p c) now).1.get
              e2.comments).children.getD k 0 =
              (h.get e.comments).children.getD k 0))) := by
  have hT_lt : addTarget h e.comments c < h.size := addTarget_lt h e.comments c hroot_lt
  have hn_par : ((addComment h e.comments c).1.get (addComment h e.comments c).2).parent
      = some (addTarget h e.comments c) := by
    rw [addComment_snd, addComment_get_new h e.comments c hroot_lt]
  have hT_par : ((addComment h e.comments c).1.get (addTarget h e.comments c)).parent
      = (h.get (addTarget h e.comments c)).parent := by
    rw [addComment_get_target h e.comments c hroot_lt]
  constructor
  · -- case A: attached directly under the root
    intro hTr
    have hcond : (match ((addComment h e.comments c).1.get
          (addComment h e.comments c).2).parent with
        | some q => (((addComment h e.comments c).1.get q).parent).isSome
        | none => false) = false := by
      rw [hn_par]
      show (((addComment h e.comments c).1.get (addTarget h e.comments c)).parent).isSome = false
      rw [hT_par, hTr, hroot_par]
      rfl
    have hred : commentsReducer h s (.newCommentAdded p c) now =
        (((addComment h e.comments c).1.alloc
            ((addComment h e.comments c).1.get e.comments)).1,
          ⟨s.ids, itemsSet s.items p { e with
            comments := (addComment h e.comments c).1.size,
            zIndexTop := e.zIndexTop + 1 }⟩) := by
      simp only [commentsReducer, he, Option.getD_some, hcond, Bool.false_eq_true, if_false]
      rfl
    rw [hred]
    exact ⟨_, itemsGet_itemsSet_self s.items p _, rfl⟩
  · -- case B: nested reply
    intro u hu
    have hTroot : addTarget h e.comments c ≠ e.comments := by
      intro hx
      rw [hx, hroot_par] at hu
      cases hu
    have hcond : (match ((addComment h e.comments c).1.get
          (addComment h e.comments c).2).parent with
        | some q => (((addComment h e.comments c).1.get q).parent).isSome
        | none => false) = true := by
      rw [hn_par]
      show (((addComment h e.comments c).1.get (addTarget h e.comments c)).parent).isSome = true
      rw [hT_par, hu]
      rfl
    have hch_eq : ((addComment h e.comments c).1.get e.comments).children =
        (h.get e.comments).children := by
      rw [addComment_get_other h e.comments c hroot_lt e.comments hroot_lt
        (fun hx => hTroot hx.symm)]
    have hsz1 : (addComment h e.comments c).1.size = h.size + 1 := addComment_size h e.comments c
    have hpar1 : ∀ j, j < (addComment h e.comments c).1.size →
        ∀ q, ((addComment h e.comments c).1.get j).parent = some q →
          q < (addComment h e.comments c).1.size := by
      intro j hj q hq
      by_cases hjn : j = h.size
      · subst hjn
        rw [addComment_get_new h e.comments c hroot_lt] at hq
        have hq2 : some (addTarget h e.comments c) = some q := hq
        obtain rfl := Option.some.inj hq2
        omega
      · have hjlt : j < h.size := by omega
        by_cases hjT : j = addTarget h e.comments c
        · subst hjT
          rw [addComment_get_target h e.comments c hroot_lt] at hq
          have hq2 : (h.get (addTarget h e.comments c)).parent = some q := hq
          have := (hcl _ (Nat.lt_of_lt_of_le hT_lt (Nat.le_refl _))).2 q hq2
          omega
        · rw [addComment_get_other h e.comments c hroot_lt j hjlt hjT] at hq
          have := (hcl j hjlt).2 q hq
          omega
    have htopA_lt : ascend (addComment h e.comments c).1 (addComment h e.comments c).1.size
        (addComment h e.comments c).2 < (addComment h e.comments c).1.size := by
      apply ascend_lt _ hpar1
      rw [addComment_snd]
      omega
    have hCHlt : ∀ ch ∈ (h.get e.comments).children,
        ch < (addComment h e.comments c).1.size := by
      intro ch hch
      have := (hcl e.comments hroot_lt).1 ch hch
      omega
    have hred : commentsReducer h s (.newCommentAdded p c) now =
        (let h1 := (addComment h e.comments c).1
         let topA := ascend h1 h1.size (addComment h e.comments c).2
         let fr := (h1.get e.comments).children.foldl (copyStep topA) (h1, [])
         let h3 := fr.1.set e.comments { fr.1.get e.comments with children := fr.2 }
         ((h3.alloc (h3.get e.comments)).1,
          (⟨s.ids, itemsSet s.items p
            { e with comments := (h3.alloc (h3.get e.comments)).2 }⟩ : CommentsState))) := by
      simp only [commentsReducer, he, Option.getD_some, hcond, if_true]
    rw [hred]
    dsimp only
    rw [hch_eq]
    obtain ⟨frE, frB, frL, frP, frK⟩ := fold_copy_spec (addComment h e.comments c).1 _ htopA_lt
      (h.get e.comments).children hCHlt (addComment h e.comments c).1 [] (HExt_refl _)
      (by intro x hx; cases hx)
    simp only [List.length_nil, Nat.zero_add] at frL frK
    set h1 := (addComment h e.comments c).1 with hh1def
    set tA := ascend h1 h1.size (addComment h e.comments c).2 with htAdef
    set FR := (h.get e.comments).children.foldl (copyStep tA) (h1, []) with hFRdef
    set H3 := FR.1.set e.comments { FR.1.get e.comments with children := FR.2 } with hH3def
    have hroot_h1 : e.comments < h1.size := by omega
    have hroot_fr : e.comments < FR.1.size := Nat.lt_of_lt_of_le hroot_h1 frE.1
    have hH3sz : H3.size = FR.1.size := Heap.size_set FR.1 _ _
    have hH3root : H3.get e.comments =
        { FR.1.get e.comments with children := FR.2 } := by
      rw [hH3def]
      exact Heap.get_set_self FR.1 e.comments _ hroot_fr
    have hchildren : ((H3.alloc (H3.get e.comments)).1.get
        (H3.alloc (H3.get e.comments)).2).children = FR.2 := by
      show ((H3.alloc (H3.get e.comments)).1.get H3.size).children = FR.2
      rw [Heap.get_alloc_self, hH3root]
    refine ⟨_, itemsGet_itemsSet_self s.items p _, rfl, ?_, ?_⟩
    · rw [hchildren]
      exact frL
    · intro k hk
      have hchk_mem : (h.get e.comments).children.getD k 0 ∈ (h.get e.comments).children :=
        getD_mem_nat _ k 0 hk
      have hchk_lt : (h.get e.comments).children.getD k 0 < h.size :=
        (hcl e.comments hroot_lt).1 _ hchk_mem
      have hchk_lt1 : (h.get e.comments).children.getD k 0 < h1.size := by omega
      have hkFR : k < FR.2.length := by rw [frL]; exact hk
      have hnewk_mem : FR.2.getD k 0 ∈ FR.2 := getD_mem_nat _ k 0 hkFR
      have hnewk_lt : FR.2.getD k 0 < FR.1.size := frB _ hnewk_mem
      have hstep1 : idAt (H3.alloc (H3.get e.comments)).1 (FR.2.getD k 0) =
          idAt FR.1 (FR.2.getD k 0) := by
        rw [idAt_alloc H3 _ _ (by rw [hH3sz]; exact hnewk_lt), hH3def,
          idAt_set_children]
      have hidtrans : idAt h1 ((h.get e.comments).children.getD k 0) =
          idAt h ((h.get e.comments).children.getD k 0) :=
        idAt_addComment h e.comments c hroot_lt _ hchk_lt
      constructor
      · rw [hchildren, hstep1]
        by_cases hm : idAt h1 ((h.get e.comments).children.getD k 0) = idAt h1 tA
        · have hcopy := (frK k hk).1 hm
          unfold idAt
          rw [hcopy]
          have : ((h1.get tA).comment.map (·.id)) = idAt h1 tA := rfl
          rw [this, ← hm]
          exact hidtrans
        · have hkeep := (frK k hk).2 hm
          rw [hkeep]
          have hstab : FR.1.get ((h.get e.comments).children.getD k 0) =
              h1.get ((h.get e.comments).children.getD k 0) := frE.2 _ hchk_lt1
          unfold idAt
          rw [hstab]
          exact hidtrans
      · intro hx
        rw [hchildren]
        have hm : ¬ idAt h1 ((h.get e.comments).children.getD k 0) = idAt h1 tA := by
          rw [hidtrans]
          exact hx
        exact (frK k hk).2 hm

theorem C5_new_comment_zindex_witness :
    (itemsGet ([("p", ⟨0, none, 5, 1, 1⟩)] : List (String × Entry)) "p" =
        some ⟨0, none, 5, 1, 1⟩ ∧
      (0 : Nat) < (⟨[⟨none, [1], none, 0, false⟩, ⟨some ⟨"a", none⟩, [], some 0, 0, false⟩]⟩ : Heap).size ∧
      ((⟨[⟨none, [1], none, 0, false⟩, ⟨some ⟨"a", none⟩, [], some 0, 0, false⟩]⟩ : Heap).get 0).parent = none ∧
      ClosedHeap ⟨[⟨none, [1], none, 0, false⟩, ⟨some ⟨"a", none⟩, [], some 0, 0, false⟩]⟩ ∧
      ((⟨[⟨none, [1], none, 0, false⟩, ⟨some ⟨"a", none⟩, [], some 0, 0, false⟩]⟩ : Heap).get (addTarget ⟨[⟨none, [1], none, 0, false⟩, ⟨some ⟨"a", none⟩, [], some 0, 0, false⟩]⟩ 0 ⟨"b", some "a"⟩)).parent = some 0) ∧
    (∃ e2, itemsGet (commentsReducer
        ⟨[⟨none, [1], none, 0, false⟩, ⟨some ⟨"a", none⟩, [], some 0, 0, false⟩]⟩
        ⟨[], [("p", ⟨0, none, 5, 1, 1⟩)]⟩ (.newCommentAdded "p" ⟨"b", some "a"⟩) 9).2.items "p" = some e2 ∧
      e2.zIndexTop = 5 ∧
      ((commentsReducer
        ⟨[⟨none, [1], none, 0, false⟩, ⟨some ⟨"a", none⟩, [], some 0, 0, false⟩]⟩
        ⟨[], [("p", ⟨0, none, 5, 1, 1⟩)]⟩ (.newCommentAdded "p" ⟨"b", some "a"⟩) 9).1.get e2.comments).children.length = ((⟨[⟨none, [1], none, 0, false⟩, ⟨some ⟨"a", none⟩, [], some 0, 0, false⟩]⟩ : Heap).get 0).children.length ∧
      (∀ k, k < ((⟨[⟨none, [1], none, 0, false⟩, ⟨some ⟨"a", none⟩, [], some 0, 0, false⟩]⟩ : Heap).get 0).children.length →
        idAt (commentsReducer
        ⟨[⟨none, [1], none, 0, false⟩, ⟨some ⟨"a", none⟩, [], some 0, 0, false⟩]⟩
        ⟨[], [("p", ⟨0, none, 5, 1, 1⟩)]⟩ (.newCommentAdded "p" ⟨"b", some "a"⟩) 9).1
            (((commentsReducer
        ⟨[⟨none, [1], none, 0, false⟩, ⟨some ⟨"a", none⟩, [], some 0, 0, false⟩]⟩
        ⟨[], [("p", ⟨0, none, 5, 1, 1⟩)]⟩ (.newCommentAdded "p" ⟨"b", some "a"⟩) 9).1.get e2.comments).children.getD k 0) =
          idAt ⟨[⟨none, [1], none, 0, false⟩, ⟨some ⟨"a", none⟩, [], some 0, 0, false⟩]⟩ (((⟨[⟨none, [1], none, 0, false⟩, ⟨some ⟨"a", none⟩, [], some 0, 0, false⟩]⟩ : Heap).get 0).children.getD k 0) ∧
        (idAt ⟨[⟨none, [1], none, 0, false⟩, ⟨some ⟨"a", none⟩, [], some 0, 0, false⟩]⟩ (((⟨[⟨none, [1], none, 0, false⟩, ⟨some ⟨"a", none⟩, [], some 0, 0, false⟩]⟩ : Heap).get 0).children.getD k 0) ≠
            idAt (addComment ⟨[⟨none, [1], none, 0, false⟩, ⟨some ⟨"a", none⟩, [], some 0, 0, false⟩]⟩ 0 ⟨"b", some "a"⟩).1 (ascend (addComment ⟨[⟨none, [1], none, 0, false⟩, ⟨some ⟨"a", none⟩, [], some 0, 0, false⟩]⟩ 0 ⟨"b", some "a"⟩).1 (addComment ⟨[⟨none, [1], none, 0, false⟩, ⟨some ⟨"a", none⟩, [], some 0, 0, false⟩]⟩ 0 ⟨"b", some "a"⟩).1.size (addComment ⟨[⟨none, [1], none, 0, false⟩, ⟨some ⟨"a", none⟩, [], some 0, 0, false⟩]⟩ 0 ⟨"b", some "a"⟩).2) →
          ((commentsReducer
        ⟨[⟨none, [1], none, 0, false⟩, ⟨some ⟨"a", none⟩, [], some 0, 0, false⟩]⟩
        ⟨[], [("p", ⟨0, none, 5, 1, 1⟩)]⟩ (.newCommentAdded "p" ⟨"b", some "a"⟩) 9).1.get e2.comments).children.getD k 0 =
            ((⟨[⟨none, [1], none, 0, false⟩, ⟨some ⟨"a", none⟩, [], some 0, 0, false⟩]⟩ : Heap).get 0).children.getD k 0))) :=
  ⟨⟨by decide, by decide, by decide, by unfold ClosedHeap; decide, by decide⟩,
    (C5_new_comment_zindex
      ⟨[⟨none, [1], none, 0, false⟩, ⟨some ⟨"a", none⟩, [], some 0, 0, false⟩]⟩
      ⟨[], [("p", ⟨0, none, 5, 1, 1⟩)]⟩ "p" ⟨0, none, 5, 1, 1⟩ ⟨"b", some "a"⟩ 9
      (by decide) (by decide) (by decide) (by unfold ClosedHeap; decide)).2 0 (by decide)⟩
